import Mathlib

/-!
Verification of the CaffQL schema compiler core (CodeGeneration.hpp/.cpp).

The C++ data model and the functions named in the claims are embedded
shallowly: machine strings become Lean `String`s (operated on through
`String.data` so that everything reduces in the kernel), `std::optional` /
`BoxedOptional` become `Option`, throwing functions return `Option` or
`Except String`, and the two unordered/ordered maps of the dependency
sorter become sorted association lists (`std::map` iterates in key order;
the `unordered_set`s are only ever folded over with order-insensitive
operations, so a sorted list of names is an observationally faithful
representation).  Unbounded recursions of the C++ (the sorter's outer
while loop, which is not structurally bounded in the presence of
`operator[]` default-insertions, and the query generator, which recurses
through the type map) take an explicit fuel argument; the top-level
entry points pick a fuel that is proved sufficient under the hypotheses
of the claims that quantify over all inputs, and the concrete
evaluations never exhaust it.
-/

namespace caffql

/-- The eight GraphQL type kinds (CodeGeneration.hpp, `enum class TypeKind`). -/
inductive TypeKind where
  | Scalar | Object | Interface | Union | Enum | InputObject | List | NonNull
deriving DecidableEq, Repr

/-- The five built-in scalars (CodeGeneration.hpp, `enum class Scalar`). -/
inductive Scalar where
  | Int | Float | String | Boolean | ID
deriving DecidableEq, Repr

/-- A type reference (CodeGeneration.hpp, `struct TypeRef`): kind, optional
name, and the boxed optional wrapped type `ofType`. -/
inductive TypeRef where
  | mk (kind : TypeKind) (name : Option String) (ofType : Option TypeRef)

def TypeRef.kind : TypeRef → TypeKind
  | .mk k _ _ => k

def TypeRef.name : TypeRef → Option String
  | .mk _ n _ => n

def TypeRef.ofType : TypeRef → Option TypeRef
  | .mk _ _ t => t

/-- Structural equality of `TypeRef` (the C++ `operator==` generated by
`CAFFQL_DEFINE_EQUALS`), written out because `deriving` does not handle
the nested recursion through `Option`. -/
def TypeRef.decEq : (a b : TypeRef) → Decidable (a = b)
  | .mk k1 n1 o1, .mk k2 n2 o2 =>
    if hk : k1 = k2 then
      if hn : n1 = n2 then
        match o1, o2 with
        | none, none => isTrue (by rw [hk, hn])
        | some t1, some t2 =>
          match TypeRef.decEq t1 t2 with
          | isTrue ht => isTrue (by rw [hk, hn, ht])
          | isFalse ht => isFalse (by
              intro h; injection h with h1 h2 h3; exact ht (Option.some.inj h3))
        | none, some t2 => isFalse (by
            intro h; injection h with h1 h2 h3; exact Option.noConfusion h3)
        | some t1, none => isFalse (by
            intro h; injection h with h1 h2 h3; exact Option.noConfusion h3)
      else isFalse (by intro h; injection h with h1 h2 h3; exact hn h2)
    else isFalse (by intro h; injection h with h1 h2 h3; exact hk h1)

instance : DecidableEq TypeRef := TypeRef.decEq

/-- `TypeRef::underlyingType`: strip `List`/`NonNull` wrapping until the
boxed `ofType` is absent. -/
def TypeRef.underlyingType : TypeRef → TypeRef
  | .mk k n none => .mk k n none
  | .mk _ _ (some t) => t.underlyingType

/-- An argument or input-object field (CodeGeneration.hpp, `struct InputValue`). -/
structure InputValue where
  type : TypeRef
  name : String
  description : String
deriving DecidableEq

/-- An object/interface field (CodeGeneration.hpp, `struct Field`). -/
structure Field where
  type : TypeRef
  name : String
  description : String
  args : List InputValue
deriving DecidableEq

/-- An enum case (CodeGeneration.hpp, `struct EnumValue`). -/
structure EnumValue where
  name : String
  description : String
deriving DecidableEq

/-- A full type definition (CodeGeneration.hpp, `struct Type`; renamed since
`Type` is reserved in Lean). -/
structure GqlType where
  kind : TypeKind
  name : String
  description : String
  fields : List Field
  inputFields : List InputValue
  interfaces : List TypeRef
  enumValues : List EnumValue
  possibleTypes : List TypeRef
deriving DecidableEq

/-- A value-initialized `Type` (what `std::map::operator[]` inserts for an
absent key): kind is the zero enumerator `Scalar`, every other member empty. -/
def defaultGqlType : GqlType :=
  { kind := .Scalar, name := "", description := "", fields := [],
    inputFields := [], interfaces := [], enumValues := [], possibleTypes := [] }

/-- Operation kinds (CodeGeneration.hpp, `enum class Operation`). -/
inductive Operation where
  | Query | Mutation | Subscription
deriving DecidableEq

/-- `TypeMap` (CodeGeneration.hpp): name → Type.  An association list;
`at`-style lookup returns the first binding. -/
abbrev TypeMap := List (String × GqlType)

/-- A query variable (CodeGeneration.hpp, `struct QueryVariable`). -/
structure QueryVariable where
  name : String
  type : TypeRef
deriving DecidableEq

/-- A query document (CodeGeneration.hpp, `struct QueryDocument`). -/
structure QueryDocument where
  query : String
  «variables» : List QueryVariable
deriving DecidableEq

/-! ## String helpers

All string manipulation goes through `String.data` (a `List Char`) so the
kernel can evaluate it.  The C++ operates on bytes in the C locale; over
the ASCII names exercised here the two agree. -/

/-- `capitalize` on a non-empty string (C++ `string.at(0) = toupper(...)`).
The C++ throws on the empty string; this total version returns it
unchanged, and `capitalizeOpt` below models the throw. -/
def capitalize (s : String) : String :=
  match s.data with
  | [] => ""
  | c :: cs => String.mk (c.toUpper :: cs)

/-- `uncapitalize` on a non-empty string; the total companion of
`uncapitalizeOpt`. -/
def uncapitalize (s : String) : String :=
  match s.data with
  | [] => ""
  | c :: cs => String.mk (c.toLower :: cs)

/-- `capitalize` with the C++ failure mode made explicit: `std::string::at(0)`
throws `std::out_of_range` on the empty string, so the result is `none`
exactly there. -/
def capitalizeOpt (s : String) : Option String :=
  match s.data with
  | [] => none
  | c :: cs => some (String.mk (c.toUpper :: cs))

/-- `uncapitalize` with the C++ failure mode made explicit. -/
def uncapitalizeOpt (s : String) : Option String :=
  match s.data with
  | [] => none
  | c :: cs => some (String.mk (c.toLower :: cs))

/-- `spacesPerIndent` (CodeGeneration.hpp). -/
def spacesPerIndent : Nat := 4

/-- `indent`: a run of `indentation * spacesPerIndent` spaces. -/
def indent (indentation : Nat) : String :=
  String.mk (List.replicate (indentation * spacesPerIndent) ' ')

/-- `cppIdTypeName` (CodeGeneration.hpp). -/
def cppIdTypeName : String := "Id"

/-- `cppJsonTypeName` (CodeGeneration.hpp). -/
def cppJsonTypeName : String := "Json"

/-- `unknownCaseName` (CodeGeneration.hpp). -/
def unknownCaseName : String := "Unknown"

/-- `grapqlErrorTypeName` (CodeGeneration.hpp, sic). -/
def grapqlErrorTypeName : String := "GraphqlError"

/-! ## Scalar resolution and the type-name renderer -/

/-- `scalarType` (CodeGeneration.cpp): resolve one of the five built-in
scalar names, or throw `std::invalid_argument` carrying the offending
name. -/
def scalarType (name : String) : Except String Scalar :=
  if name = "Int" then .ok .Int
  else if name = "Float" then .ok .Float
  else if name = "String" then .ok .String
  else if name = "Boolean" then .ok .Boolean
  else if name = "ID" then .ok .ID
  else .error ("Invalid Scalar value: " ++ name)

/-- `cppScalarName` (CodeGeneration.cpp).  The C++ `throw` after the switch
is dead code because the enumeration is closed. -/
def cppScalarName : Scalar → String
  | .Int => "int32_t"
  | .Float => "double"
  | .String => "std::string"
  | .ID => cppIdTypeName
  | .Boolean => "bool"

/-- `cppTypeName(type, false)`: the renderer with `shouldCheckNullability`
off.  The `List` branch inlines the recursive call
`cppTypeName(*type.ofType)` with its default `shouldCheckNullability =
true`, so the recursion is structural.  `none` models the C++ throws:
`name.value()` on an absent name, dereferencing an absent `ofType`, and
an unknown scalar name. -/
def cppTypeNameCore : TypeRef → Option String
  | .mk k n o =>
    match k with
    | .Object | .Interface | .Union | .Enum | .InputObject => n
    | .Scalar =>
      match n with
      | some nm =>
        match scalarType nm with
        | .ok s => some (cppScalarName s)
        | .error _ => none
      | none => none
    | .List =>
      match o with
      | some t =>
        match (if t.kind ≠ TypeKind.NonNull then
                 (cppTypeNameCore t).map (fun s => "optional<" ++ s ++ ">")
               else cppTypeNameCore t) with
        | some s => some ("std::vector<" ++ s ++ ">")
        | none => none
      | none => none
    | .NonNull =>
      match o with
      | some t => cppTypeNameCore t
      | none => none

/-- `cppTypeName(type, shouldCheckNullability)` (CodeGeneration.cpp): wrap
in `optional<...>` when nullability is checked and the kind is not
`NonNull`, then render the body. -/
def cppTypeName (type : TypeRef) (shouldCheckNullability : Bool := true) : Option String :=
  if shouldCheckNullability ∧ type.kind ≠ TypeKind.NonNull then
    (cppTypeNameCore type).map (fun s => "optional<" ++ s ++ ">")
  else cppTypeNameCore type

/-- Decidable equality for `Except` results (core provides none). -/
instance {ε α : Type} [DecidableEq ε] [DecidableEq α] : DecidableEq (Except ε α) := fun a b =>
  match a, b with
  | .ok x, .ok y =>
    if h : x = y then isTrue (by rw [h])
    else isFalse (by intro c; injection c; contradiction)
  | .error x, .error y =>
    if h : x = y then isTrue (by rw [h])
    else isFalse (by intro c; injection c; contradiction)
  | .ok _, .error _ => isFalse (by intro c; exact Except.noConfusion c)
  | .error _, .ok _ => isFalse (by intro c; exact Except.noConfusion c)

/-! ## Lexicographic string order

`std::map<std::string, ...>` iterates in the order of `std::string`'s
`operator<`, lexicographic on bytes.  `strLtb` is that order on
code points (they agree on ASCII and, thanks to UTF-8's design, beyond),
written as a recursion on `String.data` so the kernel can evaluate it. -/

def strLtbAux : List Char → List Char → Bool
  | [], [] => false
  | [], _ :: _ => true
  | _ :: _, [] => false
  | a :: as, b :: bs =>
    if a.toNat < b.toNat then true
    else if b.toNat < a.toNat then false
    else strLtbAux as bs

/-- Lexicographic `<` on strings, decidably and kernel-reducibly. -/
def strLtb (a b : String) : Bool :=
  strLtbAux a.data b.data

/-! ## Sorted association lists

The sorter's `std::map`s are embedded as association lists sorted by
`strLtb`.  Its `std::unordered_set<std::string>` values are embedded as
`strLtb`-sorted duplicate-free lists: the algorithm only inserts into
them, erases from them, tests them for emptiness and folds an
order-insensitive operation over them, so the representation is
observationally faithful. -/

/-- Map lookup (first binding wins; on the sorted maps there is at most one). -/
def alookup {α : Type} (k : String) : List (String × α) → Option α
  | [] => none
  | (k', v) :: rest => if k = k' then some v else alookup k rest

/-- `m[k] = f (m[k] or d)`: the `std::map::operator[]` idiom.  If `k` is
absent it is inserted (at its sorted position) with value `f d`, mirroring
value-initialization followed by the mutation `f`. -/
def aupdate {α : Type} (k : String) (f : α → α) (d : α) : List (String × α) → List (String × α)
  | [] => [(k, f d)]
  | (k', v) :: rest =>
    if strLtb k k' then (k, f d) :: (k', v) :: rest
    else if k = k' then (k', f v) :: rest
    else (k', v) :: aupdate k f d rest

/-- `m[k] = v` (insert or overwrite). -/
def ainsert {α : Type} (k : String) (v : α) (m : List (String × α)) : List (String × α) :=
  aupdate k (fun _ => v) v m

/-- `m.erase(k)`. -/
def aerase {α : Type} (k : String) (m : List (String × α)) : List (String × α) :=
  m.filter (fun kv => kv.1 ≠ k)

/-- Insert into a sorted duplicate-free list of names (`unordered_set::insert`). -/
def insortStr (x : String) : List String → List String
  | [] => [x]
  | y :: ys =>
    if strLtb x y then x :: y :: ys
    else if x = y then y :: ys
    else y :: insortStr x ys

/-! ## The dependency sorter (`sortCustomTypesByDependencyOrder`) -/

/-- The `isCustomType` lambda in `sortCustomTypesByDependencyOrder`:
the five named, declaration-owning kinds.  The C++ `throw` after the
switch is dead code because the enumeration is closed. -/
def isCustomType : TypeKind → Bool
  | .Object | .Interface | .Union | .Enum | .InputObject => true
  | .Scalar | .List | .NonNull => false

/-- `type.name.rfind("__", 0) == 0`: the name starts with the meta-type
marker. -/
def isMetaTypeName (name : String) : Bool :=
  match name.data with
  | '_' :: '_' :: _ => true
  | _ => false

/-- The type references handed to `addDependency` for one type, in program
order: each field's underlying type followed by its arguments' underlying
types, then each input field's underlying type, then the possible types
(passed as written, not unwrapped). -/
def typeDependencyRefs (t : GqlType) : List TypeRef :=
  (t.fields.flatMap fun f =>
    f.type.underlyingType :: f.args.map fun a => a.type.underlyingType)
  ++ t.inputFields.map (fun f => f.type.underlyingType)
  ++ t.possibleTypes

/-- The sorter's working state after the registration loop:
`typesToDependents` (dependency name → names of its dependents) and
`typesToDependencies` (type name → the type and its dependency-name set). -/
structure SortState where
  typesToDependents : List (String × List String)
  typesToDependencies : List (String × (GqlType × List String))

/-- The `addDependency` lambda: record `dependency` for the type named
`typeName` when the reference is named and of custom kind. -/
def addDependency (typeName : String)
    (st : List (String × List String) × List String) (dependency : TypeRef) :
    List (String × List String) × List String :=
  match dependency.name with
  | some dn =>
    if isCustomType dependency.kind then
      (aupdate dn (insortStr typeName) [] st.1, insortStr dn st.2)
    else st
  | none => st

/-- One iteration of the registration loop: skip non-custom and meta
types, otherwise collect the dependency set and store
`typesToDependencies[type.name] = {type, dependencies}`. -/
def registerType (st : SortState) (type : GqlType) : SortState :=
  if isCustomType type.kind && !isMetaTypeName type.name then
    let p := (typeDependencyRefs type).foldl (addDependency type.name)
      (st.typesToDependents, [])
    ⟨p.1, ainsert type.name (type, p.2) st.typesToDependencies⟩
  else st

/-- The registration loop over the input list. -/
def registerTypes (types : List GqlType) : SortState :=
  types.foldl registerType ⟨[], []⟩

/-- The first key of the (sorted) map strictly greater than `pos`
(`none` = before the first key): where a `std::map` range-for that has
just visited `pos` resumes, including entries inserted mid-iteration. -/
def nextKeyAfter {α : Type} (pos : Option String) : List (String × α) → Option String
  | [] => none
  | (k, _) :: rest =>
    match pos with
    | none => some k
    | some p => if strLtb p k then some k else nextKeyAfter pos rest

/-- `typesToDependencies[dependentName].dependencies.erase(k)`: if
`dependentName` is absent, `operator[]` first default-inserts a
value-initialized entry. -/
def eraseDependencyOn (k dependentName : String)
    (m : List (String × (GqlType × List String))) :
    List (String × (GqlType × List String)) :=
  aupdate dependentName (fun ent => (ent.1, ent.2.filter (fun s => s ≠ k)))
    (defaultGqlType, []) m

/-- One pass of the sort loop (the range-for over `typesToDependencies`):
starting after position `pos`, visit each key in order; a key whose
dependency set is empty is emitted, recorded in `addedTypeNames`, and
erased from each of its dependents' dependency sets (which can
default-insert an absent dependent ahead of the iterator).  Returns
(emitted types, added names, final map).  The fuel only guards
termination; callers pass enough for the pass to run to the end of the
map. -/
def runPass (dependents : List (String × List String)) :
    Nat → List (String × (GqlType × List String)) → Option String →
    List GqlType × List String × List (String × (GqlType × List String))
  | 0, m, _ => ([], [], m)
  | fuel + 1, m, pos =>
    match nextKeyAfter pos m with
    | none => ([], [], m)
    | some k =>
      match alookup k m with
      | none => ([], [], m)
      | some e =>
        if e.2.isEmpty then
          let m' := ((alookup k dependents).getD []).foldl
            (fun acc d => eraseDependencyOn k d acc) m
          let r := runPass dependents fuel m' (some k)
          (e.1 :: r.1, k :: r.2.1, r.2.2)
        else
          runPass dependents fuel m (some k)

/-- Fuel headroom for one pass: names can only be default-inserted from
the dependents' value sets, so the pass visits at most this many keys
beyond the map itself. -/
def dependentsSize (dependents : List (String × List String)) : Nat :=
  (dependents.map (fun p => p.2.length)).sum

/-- The sorter's `while (!typesToDependencies.empty())` loop: run a pass,
erase the added names, and fail with the C++'s fixed message when the
map's size did not change. -/
def sortLoop (dependents : List (String × List String)) :
    Nat → List (String × (GqlType × List String)) → Except String (List GqlType)
  | 0, m => if m.isEmpty then .ok [] else .error "Ran out of fuel"
  | fuel + 1, m =>
    if m.isEmpty then .ok []
    else
      let initialCount := m.length
      let r := runPass dependents (m.length + dependentsSize dependents + 1) m none
      let m' := r.2.1.foldl (fun acc k => aerase k acc) r.2.2
      if m'.length = initialCount then .error "Circular dependencies in schema"
      else
        match sortLoop dependents fuel m' with
        | .ok rest => .ok (r.1 ++ rest)
        | .error e => .error e

/-- `sortCustomTypesByDependencyOrder` (CodeGeneration.cpp): register the
custom types, then run the elimination loop.  `.error` models the C++
throw. -/
def sortCustomTypesByDependencyOrder (types : List GqlType) : Except String (List GqlType) :=
  let st := registerTypes types
  sortLoop st.typesToDependents (st.typesToDependencies.length + 1) st.typesToDependencies

/-- `graphqlTypeName` (CodeGeneration.cpp): named kinds print their name,
lists bracket, `NonNull` suffixes `!`. -/
def graphqlTypeName : TypeRef → Option String
  | .mk k n o =>
    match k with
    | .Scalar | .Object | .Union | .Interface | .Enum | .InputObject => n
    | .List =>
      match o with
      | some t => (graphqlTypeName t).map (fun s => "[" ++ s ++ "]")
      | none => none
    | .NonNull =>
      match o with
      | some t => (graphqlTypeName t).map (fun s => s ++ "!")
      | none => none

/-! ## The query document builder

`generateQueryField` / `generateQueryFields` recurse through the type
map, which nothing bounds (on a self-referential object type the C++
recurses forever); the embedding takes fuel and returns `none` when it
runs out or when one of the C++ throws (`optional::value()` on an absent
name, `unordered_map::at` on an absent key) fires.  The C++'s mutable
`variables` vector is threaded as explicit state. -/

/-- `operationQueryName` (CodeGeneration.cpp).  The throw after the switch
is dead code. -/
def operationQueryName : Operation → String
  | .Query => "query"
  | .Mutation => "mutation"
  | .Subscription => "subscription"

/-- `appendNameToVariablePrefix` (CodeGeneration.cpp). -/
def appendNameToVariablePrefix (variablePrefix name : String) : String :=
  if variablePrefix = "" then uncapitalize name
  else variablePrefix ++ capitalize name

mutual

/-- `generateQueryField` (CodeGeneration.cpp): emit the field name, its
argument bindings (registering one query variable per argument), and —
unless the underlying type is `Scalar` or `Enum` — a braced nested
selection obtained from `generateQueryFields` with an empty
`ignoredFields` list. -/
def generateQueryField (fuel : Nat) (field : Field) (typeMap : TypeMap)
    (variablePrefix : String) (vars : List QueryVariable) (indentation : Nat) :
    Option (String × List QueryVariable) :=
  match fuel with
  | 0 => none
  | fuel + 1 =>
    let start := indent indentation ++ field.name
    let argPart : String × List QueryVariable :=
      if field.args.isEmpty then ("", vars)
      else
        ("(\n" ++ String.join (field.args.map fun arg =>
            indent (indentation + 1) ++ arg.name ++ ": $"
              ++ appendNameToVariablePrefix variablePrefix arg.name ++ "\n")
          ++ indent indentation ++ ")",
         vars ++ field.args.map fun arg =>
            ⟨appendNameToVariablePrefix variablePrefix arg.name, arg.type⟩)
    let underlyingFieldType := field.type.underlyingType
    if underlyingFieldType.kind ≠ TypeKind.Scalar ∧ underlyingFieldType.kind ≠ TypeKind.Enum then
      match underlyingFieldType.name with
      | none => none
      | some n =>
        match alookup n typeMap with
        | none => none
        | some t =>
          match generateQueryFields fuel t typeMap
              (appendNameToVariablePrefix variablePrefix n) argPart.2 [] (indentation + 1) with
          | none => none
          | some (inner, vars') =>
            some (start ++ argPart.1 ++ " \x7b\n" ++ inner
              ++ indent indentation ++ "\x7d" ++ "\n", vars')
    else
      some (start ++ argPart.1 ++ "\n", argPart.2)

/-- `generateQueryFields` (CodeGeneration.cpp): for a polymorphic type
(non-empty `possibleTypes`) emit `__typename`, then the type's own
fields that are not in `ignoredFields` (the `addTypeFields` lambda),
then one `...on` inline fragment per possible type whose recursively
generated selection — computed with `ignoredFields` = this type's
fields — is non-empty; for a non-polymorphic type just the own fields. -/
def generateQueryFields (fuel : Nat) (type : GqlType) (typeMap : TypeMap)
    (variablePrefix : String) (vars : List QueryVariable)
    (ignoredFields : List Field) (indentation : Nat) :
    Option (String × List QueryVariable) :=
  match fuel with
  | 0 => none
  | fuel + 1 =>
    let own : Option (String × List QueryVariable) :=
      type.fields.foldlM (fun (acc : String × List QueryVariable) field =>
        if ignoredFields.contains field then pure acc
        else
          (generateQueryField fuel field typeMap
            (appendNameToVariablePrefix variablePrefix field.name) acc.2 indentation).map
            (fun r => (acc.1 ++ r.1, r.2))) ("", vars)
    match own with
    | none => none
    | some ownPart =>
      if type.possibleTypes.isEmpty then some ownPart
      else
        let frags : Option (String × List QueryVariable) :=
          type.possibleTypes.foldlM (fun (acc : String × List QueryVariable) possibleType =>
            match possibleType.name with
            | none => none
            | some pn =>
              match alookup pn typeMap with
              | none => none
              | some pt =>
                (generateQueryFields fuel pt typeMap
                  (appendNameToVariablePrefix variablePrefix pn) acc.2
                  type.fields (indentation + 1)).map
                  (fun r =>
                    if r.1 = "" then (acc.1, r.2)
                    else (acc.1 ++ indent indentation ++ "...on " ++ pn ++ " \x7b\n"
                      ++ r.1 ++ indent indentation ++ "\x7d\n", r.2))) ownPart
        match frags with
        | none => none
        | some fragPart =>
          some (indent indentation ++ "__typename\n" ++ fragPart.1, fragPart.2)

end

/-- `generateQueryDocument` (CodeGeneration.cpp): the root selection set
(generated with variable-name prefix `""` and the document's fresh
variables vector), then the operation header with one `$variable: Type`
line per registered variable. -/
def generateQueryDocument (fuel : Nat) (field : Field) (operation : Operation)
    (typeMap : TypeMap) (indentation : Nat) : Option QueryDocument :=
  match generateQueryField fuel field typeMap "" [] (indentation + 1) with
  | none => none
  | some (selectionSet, vars) =>
    let header := indent indentation ++ operationQueryName operation ++ " "
      ++ capitalize field.name
    let headerWithVars : Option String :=
      if vars.isEmpty then some header
      else
        (vars.foldlM (fun acc v =>
          (graphqlTypeName v.type).map fun tn =>
            acc ++ indent (indentation + 1) ++ "$" ++ v.name ++ ": " ++ tn ++ "\n")
          (header ++ "(\n")).map (fun s => s ++ indent indentation ++ ")")
    match headerWithVars with
    | none => none
    | some h =>
      some ⟨h ++ " \x7b\n" ++ selectionSet ++ indent indentation ++ "\x7d\n", vars⟩

/-- `generateOperationResponseFunction` (CodeGeneration.cpp): the emitted
decoder text.  It fails (`none`) exactly when `cppTypeName` fails on the
field's type. -/
def generateOperationResponseFunction (field : Field) (indentation : Nat) : Option String :=
  match cppTypeName field.type with
  | none => none
  | some dataType =>
    let errorsType := "std::vector<" ++ grapqlErrorTypeName ++ ">"
    let responseType := "GraphqlResponse<ResponseData>"
    some (indent indentation ++ "using ResponseData = " ++ dataType ++ ";\n\n"
      ++ indent indentation ++ "static " ++ responseType ++ " response("
        ++ cppJsonTypeName ++ " const & json) \x7b\n"
      ++ indent (indentation + 1) ++ "auto errors = json.find(\"errors\");\n"
      ++ indent (indentation + 1) ++ "if (errors != json.end()) \x7b\n"
      ++ indent (indentation + 2) ++ errorsType ++ " errorsList = *errors;\n"
      ++ indent (indentation + 2) ++ "return errorsList;\n"
      ++ indent (indentation + 1) ++ "\x7d else \x7b\n"
      ++ indent (indentation + 2) ++ "auto const & data = json.at(\"data\");\n"
      ++ (if field.type.kind = TypeKind.NonNull then
            indent (indentation + 2) ++ "return ResponseData(data.at(\""
              ++ field.name ++ "\"));\n"
          else
            indent (indentation + 2) ++ "auto it = data.find(\"" ++ field.name ++ "\");\n"
            ++ indent (indentation + 2) ++ "if (it != data.end()) \x7b\n"
            ++ indent (indentation + 3) ++ "return ResponseData(*it);\n"
            ++ indent (indentation + 2) ++ "\x7d else \x7b\n"
            ++ indent (indentation + 3) ++ "return ResponseData\x7b\x7d;\n"
            ++ indent (indentation + 2) ++ "\x7d\n")
      ++ indent (indentation + 1) ++ "\x7d\n"
      ++ indent indentation ++ "\x7d\n\n")

/-! ## Order lemmas for `strLtb` -/

theorem strLtbAux_irrefl : ∀ l : List Char, strLtbAux l l = false := by
  intro l
  induction l with
  | nil => rfl
  | cons c cs ih => simp [strLtbAux, ih]

theorem strLtbAux_trans : ∀ a b c : List Char,
    strLtbAux a b = true → strLtbAux b c = true → strLtbAux a c = true := by
  intro a
  induction a with
  | nil =>
    intro b c hab hbc
    cases b with
    | nil => simp [strLtbAux] at hab
    | cons y ys =>
      cases c with
      | nil => simp [strLtbAux] at hbc
      | cons z zs => simp [strLtbAux]
  | cons x xs ih =>
    intro b c hab hbc
    cases b with
    | nil => simp [strLtbAux] at hab
    | cons y ys =>
      cases c with
      | nil => simp [strLtbAux] at hbc
      | cons z zs =>
        simp only [strLtbAux] at hab hbc ⊢
        by_cases h1 : x.toNat < y.toNat <;> by_cases h2 : y.toNat < x.toNat <;>
          by_cases h3 : y.toNat < z.toNat <;> by_cases h4 : z.toNat < y.toNat <;>
          by_cases h5 : x.toNat < z.toNat <;> by_cases h6 : z.toNat < x.toNat <;>
          simp_all <;>
          first
          | omega
          | (exact Or.inr (ih ys zs hab hbc))

theorem strLtbAux_antisymm_eq : ∀ a b : List Char,
    strLtbAux a b = false → strLtbAux b a = false → a = b := by
  intro a
  induction a with
  | nil =>
    intro b hab _
    cases b with
    | nil => rfl
    | cons y ys => simp [strLtbAux] at hab
  | cons x xs ih =>
    intro b hab hba
    cases b with
    | nil => simp [strLtbAux] at hba
    | cons y ys =>
      simp only [strLtbAux] at hab hba
      by_cases h1 : x.toNat < y.toNat <;> by_cases h2 : y.toNat < x.toNat <;>
        simp_all
      have hx : x = y := by
        have ht : x.toNat = y.toNat := by omega
        calc x = Char.ofNat x.toNat := (Char.ofNat_toNat x).symm
          _ = Char.ofNat y.toNat := by rw [ht]
          _ = y := Char.ofNat_toNat y
      exact ⟨hx, ih ys hab hba⟩

theorem strLtb_irrefl (a : String) : strLtb a a = false :=
  strLtbAux_irrefl a.data

theorem strLtb_trans {a b c : String} :
    strLtb a b = true → strLtb b c = true → strLtb a c = true :=
  strLtbAux_trans a.data b.data c.data

theorem strLtb_antisymm_eq {a b : String} :
    strLtb a b = false → strLtb b a = false → a = b := by
  intro h1 h2
  exact String.ext (strLtbAux_antisymm_eq a.data b.data h1 h2)

theorem strLtb_asymm {a b : String} (h : strLtb a b = true) : strLtb b a = false := by
  by_contra hc
  have hba : strLtb b a = true := by
    cases hh : strLtb b a
    · exact absurd hh hc
    · rfl
  have := strLtb_trans h hba
  rw [strLtb_irrefl] at this
  exact Bool.noConfusion this

theorem strLtb_total {a b : String} (h : a ≠ b) :
    strLtb a b = true ∨ strLtb b a = true := by
  cases hab : strLtb a b
  · cases hba : strLtb b a
    · exact absurd (strLtb_antisymm_eq hab hba) h
    · exact Or.inr rfl
  · exact Or.inl rfl

theorem strLtb_ne {a b : String} (h : strLtb a b = true) : a ≠ b := by
  intro he
  subst he
  rw [strLtb_irrefl] at h
  exact Bool.noConfusion h

instance : IsTrans String (fun a b => strLtb a b = true) :=
  ⟨fun _ _ _ hab hbc => strLtb_trans hab hbc⟩

/-! ## Lemmas about the sorted association lists -/

/-- The keys of an association list, in order. -/
def akeys {α : Type} (m : List (String × α)) : List String :=
  m.map Prod.fst

/-- Keys strictly ascend: the invariant of every map the sorter builds. -/
abbrev AMSorted {α : Type} (m : List (String × α)) : Prop :=
  m.Pairwise (fun x y => strLtb x.1 y.1 = true)

/-- Strictly ascending list of names: the invariant of the dependency
sets. -/
abbrev SSorted (l : List String) : Prop :=
  l.Pairwise (fun x y => strLtb x y = true)

theorem alookup_isSome_iff {α : Type} (k : String) (m : List (String × α)) :
    (alookup k m).isSome ↔ k ∈ akeys m := by
  induction m with
  | nil => simp [alookup, akeys]
  | cons kv rest ih =>
    simp only [alookup, akeys, List.map_cons, List.mem_cons]
    by_cases h : k = kv.1
    · simp [h]
    · rw [if_neg h]
      rw [akeys] at ih
      rw [ih]
      simp [h]

theorem alookup_eq_none_iff {α : Type} (k : String) (m : List (String × α)) :
    alookup k m = none ↔ k ∉ akeys m := by
  rw [← alookup_isSome_iff]
  cases alookup k m <;> simp

theorem alookup_eq_none_of_forall_lt {α : Type} {k : String} {m : List (String × α)}
    (h : ∀ kv ∈ m, strLtb k kv.1 = true) : alookup k m = none := by
  rw [alookup_eq_none_iff]
  intro hmem
  simp only [akeys, List.mem_map] at hmem
  obtain ⟨kv, hkv, hk⟩ := hmem
  exact strLtb_ne (h kv hkv) hk.symm

theorem mem_akeys_aupdate {α : Type} (k k'' : String) (f : α → α) (d : α)
    (m : List (String × α)) :
    k'' ∈ akeys (aupdate k f d m) ↔ k'' = k ∨ k'' ∈ akeys m := by
  induction m with
  | nil => simp [aupdate, akeys]
  | cons kv rest ih =>
    simp only [aupdate]
    split_ifs with h1 h2
    · simp only [akeys, List.map_cons, List.mem_cons] at ih ⊢
    · subst h2
      simp only [akeys, List.map_cons, List.mem_cons]
      tauto
    · simp only [akeys, List.map_cons, List.mem_cons] at ih ⊢
      tauto

theorem alookup_aupdate_ne {α : Type} {k k'' : String} (hne : k'' ≠ k)
    (f : α → α) (d : α) (m : List (String × α)) :
    alookup k'' (aupdate k f d m) = alookup k'' m := by
  induction m with
  | nil => simp [aupdate, alookup, hne]
  | cons kv rest ih =>
    simp only [aupdate]
    split_ifs with h1 h2
    · simp [alookup, hne]
    · subst h2
      simp [alookup, hne]
    · by_cases h3 : k'' = kv.1
      · simp [alookup, h3]
      · simp [alookup, h3, ih]

theorem alookup_aupdate_self {α : Type} {m : List (String × α)} (hs : AMSorted m)
    (k : String) (f : α → α) (d : α) :
    alookup k (aupdate k f d m) = some (f ((alookup k m).getD d)) := by
  induction m with
  | nil => simp [aupdate, alookup]
  | cons kv rest ih =>
    have hs := List.pairwise_cons.mp hs
    simp only [aupdate]
    split_ifs with h1 h2
    · have hrest : alookup k rest = none :=
        alookup_eq_none_of_forall_lt (fun kv' hkv' => strLtb_trans h1 (hs.1 kv' hkv'))
      have hne : k ≠ kv.1 := strLtb_ne h1
      simp [alookup, hne, hrest]
    · subst h2
      simp [alookup]
    · have hne : k ≠ kv.1 := h2
      simp [alookup, hne, ih hs.2]

theorem AMSorted_aupdate {α : Type} {m : List (String × α)} (hs : AMSorted m)
    (k : String) (f : α → α) (d : α) : AMSorted (aupdate k f d m) := by
  induction m with
  | nil => simp [aupdate]
  | cons kv rest ih =>
    have hs := List.pairwise_cons.mp hs
    simp only [aupdate]
    split_ifs with h1 h2
    · refine List.pairwise_cons.mpr ⟨?_, List.pairwise_cons.mpr hs⟩
      intro kv' hkv'
      rcases List.mem_cons.mp hkv' with h | h
      · rw [h]; exact h1
      · exact strLtb_trans h1 (hs.1 kv' h)
    · subst h2
      exact List.pairwise_cons.mpr ⟨fun kv' h => hs.1 kv' h, hs.2⟩
    · refine List.pairwise_cons.mpr ⟨?_, ih hs.2⟩
      intro kv' hkv'
      have hmem : kv'.1 = k ∨ kv'.1 ∈ akeys rest := by
        rw [← mem_akeys_aupdate k kv'.1 f d rest]
        exact List.mem_map_of_mem Prod.fst hkv'
      rcases hmem with h | h
      · rw [h]
        rcases strLtb_total (a := k) (b := kv.1) h2 with ht | ht
        · exact absurd ht h1
        · exact ht
      · simp only [akeys, List.mem_map] at h
        obtain ⟨kv'', hkv'', heq⟩ := h
        rw [← heq]
        exact hs.1 kv'' hkv''

theorem AMSorted_aerase {α : Type} {m : List (String × α)} (hs : AMSorted m)
    (k : String) : AMSorted (aerase k m) :=
  List.Pairwise.sublist (List.filter_sublist m) hs

theorem alookup_aerase_self {α : Type} (k : String) (m : List (String × α)) :
    alookup k (aerase k m) = none := by
  rw [alookup_eq_none_iff]
  intro hmem
  simp only [akeys, aerase, List.mem_map] at hmem
  obtain ⟨kv, hkv, hk⟩ := hmem
  have := List.of_mem_filter hkv
  simp [hk] at this

theorem alookup_aerase_ne {α : Type} {k k'' : String} (hne : k'' ≠ k)
    (m : List (String × α)) : alookup k'' (aerase k m) = alookup k'' m := by
  induction m with
  | nil => rfl
  | cons kv rest ih =>
    by_cases h : kv.1 = k
    · have hne2 : k'' ≠ kv.1 := fun hc => hne (h ▸ hc)
      have he : aerase k (kv :: rest) = aerase k rest := by
        simp [aerase, List.filter_cons, h]
      rw [he, ih]
      simp [alookup, hne2]
    · have he : aerase k (kv :: rest) = kv :: aerase k rest := by
        simp [aerase, List.filter_cons, h]
      rw [he]
      by_cases h3 : k'' = kv.1
      · simp [alookup, h3]
      · simp only [alookup, if_neg h3]
        exact ih

theorem akeys_nodup_of_AMSorted {α : Type} {m : List (String × α)}
    (hs : AMSorted m) : (akeys m).Nodup := by
  have hp : (akeys m).Pairwise (fun x y => strLtb x y = true) :=
    List.Pairwise.map Prod.fst (fun a b hab => hab) hs
  exact hp.imp (fun h => strLtb_ne h)

theorem AMSorted_ext {α : Type} : ∀ {m₁ m₂ : List (String × α)},
    AMSorted m₁ → AMSorted m₂ → (∀ k, alookup k m₁ = alookup k m₂) → m₁ = m₂ := by
  intro m₁
  induction m₁ with
  | nil =>
    intro m₂ _ _ hl
    cases m₂ with
    | nil => rfl
    | cons kv rest =>
      have := hl kv.1
      simp [alookup] at this
  | cons kv rest ih =>
    intro m₂ h1 h2 hl
    cases m₂ with
    | nil =>
      have := hl kv.1
      simp [alookup] at this
    | cons kv' rest' =>
      have h1 := List.pairwise_cons.mp h1
      have h2 := List.pairwise_cons.mp h2
      have hkk : kv.1 = kv'.1 := by
        by_contra hne
        have l1 : alookup kv.1 (kv' :: rest') = some kv.2 := by
          rw [← hl kv.1]; simp [alookup]
        have l2 : alookup kv'.1 (kv :: rest) = some kv'.2 := by
          rw [hl kv'.1]; simp [alookup]
        simp only [alookup] at l1 l2
        rw [if_neg hne] at l1
        rw [if_neg (Ne.symm hne)] at l2
        have m1 : kv.1 ∈ akeys rest' := by
          rw [← alookup_isSome_iff, l1]; rfl
        have m2 : kv'.1 ∈ akeys rest := by
          rw [← alookup_isSome_iff, l2]; rfl
        simp only [akeys, List.mem_map] at m1 m2
        obtain ⟨p1, hp1, he1⟩ := m1
        obtain ⟨p2, hp2, he2⟩ := m2
        have o1 : strLtb kv'.1 kv.1 = true := by rw [← he1]; exact h2.1 p1 hp1
        have o2 : strLtb kv.1 kv'.1 = true := by rw [← he2]; exact h1.1 p2 hp2
        rw [strLtb_asymm o2] at o1
        exact Bool.noConfusion o1
      have hvv : kv.2 = kv'.2 := by
        have := hl kv.1
        simp [alookup, hkk] at this
        exact this
      have htail : rest = rest' := by
        apply ih h1.2 h2.2
        intro k
        by_cases hk : k = kv.1
        · rw [hk]
          have r1 : alookup kv.1 rest = none :=
            alookup_eq_none_of_forall_lt (fun p hp => h1.1 p hp)
          have r2 : alookup kv.1 rest' = none := by
            apply alookup_eq_none_of_forall_lt
            intro p hp
            rw [hkk]
            exact h2.1 p hp
          rw [r1, r2]
        · have := hl k
          have hk2 : k ≠ kv'.1 := by rw [← hkk]; exact hk
          simp only [alookup, if_neg hk, if_neg hk2] at this
          exact this
      calc kv :: rest = (kv.1, kv.2) :: rest := by rw [Prod.mk.eta]
        _ = (kv'.1, kv'.2) :: rest' := by rw [hkk, hvv, htail]
        _ = kv' :: rest' := by rw [Prod.mk.eta]

theorem length_aupdate_mem {α : Type} {k : String} {m : List (String × α)}
    (hs : AMSorted m) (hmem : k ∈ akeys m) (f : α → α) (d : α) :
    (aupdate k f d m).length = m.length := by
  induction m with
  | nil => simp [akeys] at hmem
  | cons kv rest ih =>
    have hs' := List.pairwise_cons.mp hs
    simp only [aupdate]
    split_ifs with h1 h2
    · exfalso
      simp only [akeys, List.map_cons, List.mem_cons] at hmem
      rcases hmem with h | h
      · exact strLtb_ne h1 h
      · simp only [akeys, List.mem_map] at h
        obtain ⟨p, hp, he⟩ := h
        have hlt : strLtb k p.1 = true := strLtb_trans h1 (hs'.1 p hp)
        exact strLtb_ne hlt he.symm
    · simp
    · simp only [List.length_cons]
      simp only [akeys, List.map_cons, List.mem_cons] at hmem
      rcases hmem with h | h
      · exact absurd h h2
      · rw [ih hs'.2 h]

theorem length_aerase_of_nodup {α : Type} {k : String} {m : List (String × α)}
    (hs : AMSorted m) :
    (aerase k m).length = if k ∈ akeys m then m.length - 1 else m.length := by
  induction m with
  | nil => simp [aerase, akeys]
  | cons kv rest ih =>
    have hs' := List.pairwise_cons.mp hs
    have hmc : k ∈ akeys (kv :: rest) ↔ (k = kv.1 ∨ k ∈ akeys rest) := by
      simp [akeys]
    by_cases h : kv.1 = k
    · have he : aerase k (kv :: rest) = aerase k rest := by
        simp [aerase, List.filter_cons, h]
      have hnot : k ∉ akeys rest := by
        intro hc
        simp only [akeys, List.mem_map] at hc
        obtain ⟨p, hp, hpk⟩ := hc
        exact strLtb_ne (hs'.1 p hp) (by rw [h, hpk])
      rw [he, ih hs'.2, if_neg hnot, if_pos (hmc.mpr (Or.inl h.symm))]
      simp
    · have he : aerase k (kv :: rest) = kv :: aerase k rest := by
        simp [aerase, List.filter_cons, h]
      have hne : ¬ k = kv.1 := fun hc => h hc.symm
      rw [he, List.length_cons, ih hs'.2]
      by_cases hm : k ∈ akeys rest
      · rw [if_pos hm, if_pos (hmc.mpr (Or.inr hm))]
        have hpos : 0 < rest.length := by
          cases rest with
          | nil => simp [akeys] at hm
          | cons _ _ => simp
        simp only [List.length_cons]
        omega
      · have hnot2 : k ∉ akeys (kv :: rest) := by
          intro hc
          rcases hmc.mp hc with hc | hc
          · exact hne hc
          · exact hm hc
        rw [if_neg hm, if_neg hnot2]
        simp

/-! ## Lemmas about `insortStr` -/

theorem mem_insortStr (x y : String) : ∀ l : List String,
    (y ∈ insortStr x l ↔ y = x ∨ y ∈ l) := by
  intro l
  induction l with
  | nil => simp [insortStr]
  | cons z zs ih =>
    simp only [insortStr]
    split_ifs with h1 h2
    · simp
    · subst h2
      simp only [List.mem_cons]
      tauto
    · simp only [List.mem_cons]
      rw [ih]
      tauto

theorem SSorted_insortStr {l : List String} (hs : SSorted l) (x : String) :
    SSorted (insortStr x l) := by
  induction l with
  | nil => simp [insortStr]
  | cons z zs ih =>
    have hs' := List.pairwise_cons.mp hs
    simp only [insortStr]
    split_ifs with h1 h2
    · refine List.pairwise_cons.mpr ⟨?_, hs⟩
      intro y hy
      rcases List.mem_cons.mp hy with h | h
      · rw [h]; exact h1
      · exact strLtb_trans h1 (hs'.1 y h)
    · exact hs
    · refine List.pairwise_cons.mpr ⟨?_, ih hs'.2⟩
      intro y hy
      rcases (mem_insortStr x y zs).mp hy with h | h
      · rw [h]
        rcases strLtb_total (a := x) (b := z) h2 with ht | ht
        · exact absurd ht h1
        · exact ht
      · exact hs'.1 y h

/-- Building a sorted duplicate-free set from a list of names (how the
registration loop accumulates each type's dependency set). -/
def insortAll (l : List String) : List String :=
  l.foldl (fun acc n => insortStr n acc) []

theorem foldl_insort_mem (y : String) : ∀ (l : List String) (acc : List String),
    (y ∈ l.foldl (fun acc n => insortStr n acc) acc ↔ y ∈ l ∨ y ∈ acc) := by
  intro l
  induction l with
  | nil => simp
  | cons z zs ih =>
    intro acc
    simp only [List.foldl_cons]
    rw [ih]
    rw [mem_insortStr]
    simp only [List.mem_cons]
    tauto

theorem mem_insortAll (y : String) (l : List String) :
    y ∈ insortAll l ↔ y ∈ l := by
  rw [insortAll, foldl_insort_mem]
  simp

theorem SSorted_insortAll (l : List String) : SSorted (insortAll l) := by
  rw [insortAll]
  have : ∀ acc : List String, SSorted acc →
      SSorted (l.foldl (fun acc n => insortStr n acc) acc) := by
    induction l with
    | nil => intro acc h; exact h
    | cons z zs ih =>
      intro acc h
      exact ih (insortStr z acc) (SSorted_insortStr h z)
  exact this [] List.Pairwise.nil

/-! ## Characterizing the registration loop -/

/-- The name `addDependency` records for one reference, if any (present
name of custom kind). -/
def depRefName (r : TypeRef) : Option String :=
  match r.name with
  | some n => if isCustomType r.kind then some n else none
  | none => none

/-- The dependency names recorded for a type, in program order (with
multiplicity; the sorter stores them as a set). -/
def typeDependencyNames (t : GqlType) : List String :=
  (typeDependencyRefs t).filterMap depRefName

/-- Whether the registration loop keeps a type: custom kind, not a meta
type. -/
def customEntry (t : GqlType) : Bool :=
  isCustomType t.kind && !isMetaTypeName t.name

/-- The names of the custom types of a list, in order. -/
def customNames (types : List GqlType) : List String :=
  (types.filter (fun t => customEntry t)).map (fun t => t.name)

theorem addDependency_eq (typeName : String)
    (st : List (String × List String) × List String) (r : TypeRef) :
    addDependency typeName st r
      = match depRefName r with
        | some n => (aupdate n (insortStr typeName) [] st.1, insortStr n st.2)
        | none => st := by
  cases r with
  | mk k n o =>
    cases n with
    | none => rfl
    | some nm =>
      simp only [addDependency, depRefName, TypeRef.name, TypeRef.kind]
      by_cases h : isCustomType k = true <;> simp [h]

theorem addDependency_fold_snd (typeName : String) : ∀ (refs : List TypeRef)
    (dm : List (String × List String)) (acc : List String),
    (refs.foldl (addDependency typeName) (dm, acc)).2
      = (refs.filterMap depRefName).foldl (fun a n => insortStr n a) acc := by
  intro refs
  induction refs with
  | nil => intro dm acc; rfl
  | cons r rest ih =>
    intro dm acc
    simp only [List.foldl_cons, List.filterMap_cons, addDependency_eq]
    cases hr : depRefName r with
    | none => exact ih dm acc
    | some n => exact ih _ _

theorem addDependency_fold_fst (typeName : String) : ∀ (refs : List TypeRef)
    (dm : List (String × List String)) (acc : List String),
    (refs.foldl (addDependency typeName) (dm, acc)).1
      = (refs.filterMap depRefName).foldl
          (fun m n => aupdate n (insortStr typeName) [] m) dm := by
  intro refs
  induction refs with
  | nil => intro dm acc; rfl
  | cons r rest ih =>
    intro dm acc
    simp only [List.foldl_cons, List.filterMap_cons, addDependency_eq]
    cases hr : depRefName r with
    | none => exact ih dm acc
    | some n => exact ih _ _

theorem dependents_fold_props (typeName : String) : ∀ (names : List String)
    (dm : List (String × List String)),
    AMSorted dm → (∀ k, SSorted ((alookup k dm).getD [])) →
    (AMSorted (names.foldl (fun m n => aupdate n (insortStr typeName) [] m) dm)
    ∧ (∀ k, SSorted ((alookup k
        (names.foldl (fun m n => aupdate n (insortStr typeName) [] m) dm)).getD []))
    ∧ (∀ k j, j ∈ (alookup k
        (names.foldl (fun m n => aupdate n (insortStr typeName) [] m) dm)).getD []
        ↔ j ∈ (alookup k dm).getD [] ∨ (j = typeName ∧ k ∈ names))) := by
  intro names
  induction names with
  | nil =>
    intro dm h1 h2
    refine ⟨h1, h2, ?_⟩
    intro k j
    simp
  | cons n ns ih =>
    intro dm h1 h2
    have hstep1 : AMSorted (aupdate n (insortStr typeName) [] dm) :=
      AMSorted_aupdate h1 n _ []
    have hlookStep : ∀ k, alookup k (aupdate n (insortStr typeName) [] dm)
        = if k = n then some (insortStr typeName ((alookup n dm).getD []))
          else alookup k dm := by
      intro k
      by_cases hk : k = n
      · rw [if_pos hk, hk]
        exact alookup_aupdate_self h1 n _ []
      · rw [if_neg hk]
        exact alookup_aupdate_ne hk _ _ dm
    have hstep2 : ∀ k, SSorted ((alookup k (aupdate n (insortStr typeName) [] dm)).getD []) := by
      intro k
      rw [hlookStep k]
      by_cases hk : k = n
      · rw [if_pos hk]
        exact SSorted_insortStr (h2 n) typeName
      · rw [if_neg hk]
        exact h2 k
    obtain ⟨c1, c2, c3⟩ := ih (aupdate n (insortStr typeName) [] dm) hstep1 hstep2
    simp only [List.foldl_cons]
    refine ⟨c1, c2, ?_⟩
    intro k j
    rw [c3 k j, hlookStep k]
    by_cases hk : k = n
    · rw [if_pos hk]
      simp only [Option.getD_some]
      rw [mem_insortStr]
      subst hk
      simp only [List.mem_cons]
      tauto
    · rw [if_neg hk]
      have : ¬ (k ∈ n :: ns) ∨ True := Or.inr trivial
      simp only [List.mem_cons]
      constructor
      · intro hc
        rcases hc with hc | hc
        · exact Or.inl hc
        · exact Or.inr ⟨hc.1, Or.inr hc.2⟩
      · intro hc
        rcases hc with hc | hc
        · exact Or.inl hc
        · rcases hc.2 with he | he
          · exact absurd he hk
          · exact Or.inr ⟨hc.1, he⟩

theorem values_perm_ainsert_fresh {α : Type} {k : String} (v : α) :
    ∀ {m : List (String × α)}, alookup k m = none →
    ((ainsert k v m).map (fun kv => kv.2)).Perm (v :: m.map (fun kv => kv.2)) := by
  intro m
  induction m with
  | nil => intro _; simp [ainsert, aupdate]
  | cons kv rest ih =>
    intro hfresh
    simp only [alookup] at hfresh
    have hne : k ≠ kv.1 := by
      intro hc
      rw [if_pos hc] at hfresh
      exact Option.noConfusion hfresh
    rw [if_neg hne] at hfresh
    simp only [ainsert, aupdate]
    split_ifs with h1
    · simp
    · simp only [List.map_cons]
      have step := (ih hfresh).cons kv.2
      exact step.trans (List.Perm.swap v kv.2 _)

theorem customNames_append (l1 l2 : List GqlType) :
    customNames (l1 ++ l2) = customNames l1 ++ customNames l2 := by
  simp [customNames, List.filter_append]

/-- Invariant of the registration loop after processing a prefix of the
input. -/
structure RegStateInv (processed : List GqlType) (st : SortState) : Prop where
  sortedDeps : AMSorted st.typesToDependencies
  sortedDents : AMSorted st.typesToDependents
  setsSorted : ∀ k, SSorted ((alookup k st.typesToDependents).getD [])
  depNames : ∀ k, (alookup k st.typesToDependencies).isSome = true
      ↔ k ∈ customNames processed
  depVal : (customNames processed).Nodup →
      ∀ t ∈ processed, customEntry t = true →
        alookup t.name st.typesToDependencies
          = some (t, insortAll (typeDependencyNames t))
  valsPerm : (customNames processed).Nodup →
      (st.typesToDependencies.map (fun kv => kv.2.1)).Perm
        (processed.filter (fun t => customEntry t))
  dentsMem : ∀ k j, j ∈ (alookup k st.typesToDependents).getD []
      ↔ ∃ t, t ∈ processed ∧ customEntry t = true ∧ t.name = j
        ∧ k ∈ typeDependencyNames t

theorem registerType_inv {processed : List GqlType} {st : SortState}
    (inv : RegStateInv processed st) (t : GqlType) :
    RegStateInv (processed ++ [t]) (registerType st t) := by
  by_cases hc : customEntry t = true
  · have hreg : registerType st t
        = ⟨(typeDependencyNames t).foldl
            (fun m n => aupdate n (insortStr t.name) [] m) st.typesToDependents,
           ainsert t.name (t, insortAll (typeDependencyNames t)) st.typesToDependencies⟩ := by
      simp only [registerType]
      rw [if_pos (by simpa [customEntry] using hc)]
      rw [addDependency_fold_fst, addDependency_fold_snd]
      rfl
    obtain ⟨d1, d2, d3⟩ := dependents_fold_props t.name (typeDependencyNames t)
      st.typesToDependents inv.sortedDents inv.setsSorted
    have hregM : (registerType st t).typesToDependencies
        = ainsert t.name (t, insortAll (typeDependencyNames t)) st.typesToDependencies := by
      rw [hreg]
    have hregD : (registerType st t).typesToDependents
        = (typeDependencyNames t).foldl
            (fun m n => aupdate n (insortStr t.name) [] m) st.typesToDependents := by
      rw [hreg]
    have hcn : customNames (processed ++ [t]) = customNames processed ++ [t.name] := by
      rw [customNames_append]
      simp [customNames, List.filter_cons, hc]
    refine ⟨?_, ?_, ?_, ?_, ?_, ?_, ?_⟩
    · rw [hregM, ainsert]
      exact AMSorted_aupdate inv.sortedDeps t.name _ _
    · rw [hregD]
      exact d1
    · rw [hregD]
      exact d2
    · intro k
      rw [hregM, ainsert, hcn]
      by_cases hk : k = t.name
      · rw [hk]
        rw [alookup_aupdate_self inv.sortedDeps]
        simp
      · rw [alookup_aupdate_ne hk]
        rw [inv.depNames k]
        simp only [List.mem_append, List.mem_singleton]
        constructor
        · intro h; exact Or.inl h
        · intro h
          rcases h with h | h
          · exact h
          · exact absurd h hk
    · intro hnodup u hu hcu
      rw [hcn] at hnodup
      rw [hregM, ainsert]
      have hnodup' : (customNames processed).Nodup := (List.nodup_append.mp hnodup).1
      have htn : t.name ∉ customNames processed := by
        have := (List.nodup_append.mp hnodup).2.2
        intro hmem
        exact this hmem (List.mem_singleton_self t.name)
      rcases List.mem_append.mp hu with hu | hu
      · have hune : u.name ≠ t.name := by
          intro he
          apply htn
          rw [← he]
          simp only [customNames, List.mem_map]
          exact ⟨u, List.mem_filter.mpr ⟨hu, hcu⟩, rfl⟩
        rw [alookup_aupdate_ne hune]
        exact inv.depVal hnodup' u hu hcu
      · have := List.mem_singleton.mp hu
        subst this
        rw [alookup_aupdate_self inv.sortedDeps]
    · intro hnodup
      rw [hcn] at hnodup
      rw [hregM]
      have hnodup' : (customNames processed).Nodup := (List.nodup_append.mp hnodup).1
      have htn : t.name ∉ customNames processed := by
        have := (List.nodup_append.mp hnodup).2.2
        intro hmem
        exact this hmem (List.mem_singleton_self t.name)
      have hfresh : alookup t.name st.typesToDependencies = none := by
        cases hl : alookup t.name st.typesToDependencies with
        | none => rfl
        | some v =>
          exfalso
          apply htn
          rw [← inv.depNames t.name, hl]
          rfl
      have hperm := values_perm_ainsert_fresh
        (k := t.name) (t, insortAll (typeDependencyNames t)) hfresh
      have hmm : ((ainsert t.name (t, insortAll (typeDependencyNames t))
            st.typesToDependencies).map (fun kv => kv.2.1)).Perm
          (t :: st.typesToDependencies.map (fun kv => kv.2.1)) := by
        have := hperm.map (fun p => p.1)
        simpa [List.map_map, Function.comp] using this
      have hold := inv.valsPerm hnodup'
      have hfilter : (processed ++ [t]).filter (fun u => customEntry u)
          = processed.filter (fun u => customEntry u) ++ [t] := by
        simp [List.filter_append, List.filter_cons, hc]
      rw [hfilter]
      exact hmm.trans ((hold.cons t).trans (List.perm_append_singleton t _).symm)
    · intro k j
      rw [hregD]
      rw [d3 k j, inv.dentsMem k j]
      constructor
      · intro h
        rcases h with ⟨u, hu, hcu, hn, hk⟩ | ⟨hj, hk⟩
        · exact ⟨u, List.mem_append.mpr (Or.inl hu), hcu, hn, hk⟩
        · exact ⟨t, List.mem_append.mpr (Or.inr (List.mem_singleton_self t)), hc, hj.symm, hk⟩
      · intro h
        obtain ⟨u, hu, hcu, hn, hk⟩ := h
        rcases List.mem_append.mp hu with hu | hu
        · exact Or.inl ⟨u, hu, hcu, hn, hk⟩
        · have := List.mem_singleton.mp hu
          subst this
          exact Or.inr ⟨hn.symm, hk⟩
  · have hreg : registerType st t = st := by
      simp only [registerType]
      rw [if_neg (by simpa [customEntry] using hc)]
    have hcn : customNames (processed ++ [t]) = customNames processed := by
      rw [customNames_append]
      simp [customNames, List.filter_cons, hc]
    refine ⟨?_, ?_, ?_, ?_, ?_, ?_, ?_⟩ <;> rw [hreg]
    · exact inv.sortedDeps
    · exact inv.sortedDents
    · exact inv.setsSorted
    · intro k
      rw [hcn]
      exact inv.depNames k
    · intro hnodup u hu hcu
      rw [hcn] at hnodup
      rcases List.mem_append.mp hu with hu | hu
      · exact inv.depVal hnodup u hu hcu
      · have := List.mem_singleton.mp hu
        subst this
        exact absurd hcu (by simp [hc])
    · intro hnodup
      rw [hcn] at hnodup
      have hfilter : (processed ++ [t]).filter (fun u => customEntry u)
          = processed.filter (fun u => customEntry u) := by
        simp [List.filter_append, List.filter_cons, hc]
      rw [hfilter]
      exact inv.valsPerm hnodup
    · intro k j
      rw [inv.dentsMem k j]
      constructor
      · intro h
        obtain ⟨u, hu, hcu, hn, hk⟩ := h
        exact ⟨u, List.mem_append.mpr (Or.inl hu), hcu, hn, hk⟩
      · intro h
        obtain ⟨u, hu, hcu, hn, hk⟩ := h
        rcases List.mem_append.mp hu with hu | hu
        · exact ⟨u, hu, hcu, hn, hk⟩
        · have := List.mem_singleton.mp hu
          subst this
          exact absurd hcu (by simp [hc])

theorem registerTypes_inv (types : List GqlType) :
    RegStateInv types (registerTypes types) := by
  have base : RegStateInv [] ⟨[], []⟩ := by
    refine ⟨List.Pairwise.nil, List.Pairwise.nil, ?_, ?_, ?_, ?_, ?_⟩
    · intro k; simp [alookup]
    · intro k; simp [alookup, customNames]
    · intro _ t ht; simp at ht
    · intro _; simp [customNames, alookup]
    · intro k j; simp [alookup]
  have step : ∀ (rest : List GqlType) (processed : List GqlType) (st : SortState),
      RegStateInv processed st →
      RegStateInv (processed ++ rest) (rest.foldl registerType st) := by
    intro rest
    induction rest with
    | nil => intro processed st h; simpa using h
    | cons t ts ih =>
      intro processed st h
      have := ih (processed ++ [t]) (registerType st t) (registerType_inv h t)
      simpa using this
  have := step types [] ⟨[], []⟩ base
  simpa [registerTypes] using this

/-! ## Invariants of the elimination loop

Everything below is stated relative to the registered maps: `m₀` is
`typesToDependencies` as registration left it, `dependents` is
`typesToDependents`.  `RegCtx` holds exactly when the input's custom
type names are pairwise distinct (established later from
`RegStateInv`). -/

/-- What the elimination loop needs to know about the registered maps. -/
structure RegCtx (m₀ : List (String × (GqlType × List String)))
    (dependents : List (String × List String)) : Prop where
  sorted₀ : AMSorted m₀
  nameOk : ∀ k t ds, alookup k m₀ = some (t, ds) → t.name = k
  dentsNodup : ∀ k, ((alookup k dependents).getD []).Nodup
  dentsIff : ∀ k j, j ∈ (alookup k dependents).getD []
      ↔ ∃ t ds, alookup j m₀ = some (t, ds) ∧ k ∈ ds

/-- Emission order respects dependencies: every dependency of the i-th
emitted name was emitted before position i. -/
def DepOrdered (m₀ : List (String × (GqlType × List String)))
    (emitted : List String) : Prop :=
  ∀ i (hi : i < emitted.length) t ds,
    alookup (emitted.get ⟨i, hi⟩) m₀ = some (t, ds) →
    ∀ d ∈ ds, d ∈ emitted.take i

/-- The working map during the loop: names in `done` were emitted in
earlier passes and erased; names in `cur` were emitted in the current
pass (still present, dependency set exhausted); every other registered
name is present with its original dependency set minus everything
emitted. -/
def PassInv (m₀ : List (String × (GqlType × List String)))
    (done cur : List String)
    (m : List (String × (GqlType × List String))) : Prop :=
  ∀ k, (alookup k m₀ = none → alookup k m = none)
    ∧ ∀ t ds, alookup k m₀ = some (t, ds) →
        alookup k m
          = if k ∈ done then none
            else some (t, ds.filter (fun d => decide (d ∉ done ∧ d ∉ cur)))

theorem PassInv_keys_sub {m₀ : List (String × (GqlType × List String))}
    {done cur : List String} {m : List (String × (GqlType × List String))}
    (h : PassInv m₀ done cur m) {k : String} (hk : k ∈ akeys m) : k ∈ akeys m₀ := by
  rw [← alookup_isSome_iff] at hk ⊢
  cases hl : alookup k m₀ with
  | none =>
    rw [(h k).1 hl] at hk
    exact absurd hk (by simp)
  | some v => rfl

theorem DepOrdered_snoc {m₀ : List (String × (GqlType × List String))}
    {emitted : List String} (h : DepOrdered m₀ emitted) {k : String}
    (hk : ∀ t ds, alookup k m₀ = some (t, ds) → ∀ d ∈ ds, d ∈ emitted) :
    DepOrdered m₀ (emitted ++ [k]) := by
  intro i hi t ds hl d hd
  have hlen : i < emitted.length + 1 := by simpa using hi
  by_cases hlt : i < emitted.length
  · have hget : (emitted ++ [k]).get ⟨i, hi⟩ = emitted.get ⟨i, hlt⟩ := by
      rw [List.get_append_left]
    rw [hget] at hl
    have := h i hlt t ds hl d hd
    rw [List.take_append_of_le_length (le_of_lt hlt)]
    exact this
  · have hieq : i = emitted.length := by omega
    have hget : (emitted ++ [k]).get ⟨i, hi⟩ = k := by
      subst hieq
      simp
    rw [hget] at hl
    have := hk t ds hl d hd
    subst hieq
    rw [List.take_append_of_le_length (le_refl _)]
    simpa using this

theorem DepOrdered_mem {m₀ : List (String × (GqlType × List String))}
    {emitted : List String} (h : DepOrdered m₀ emitted)
    {j k : String} (hj : j ∈ emitted) {t : GqlType} {ds : List String}
    (hl : alookup j m₀ = some (t, ds)) (hk : k ∈ ds) : k ∈ emitted := by
  obtain ⟨i, hget⟩ := List.mem_iff_get.mp hj
  have := h i.1 i.2 t ds (by rw [hget]; exact hl) k hk
  exact List.mem_of_mem_take this

theorem nextKeyAfter_some {α : Type} {pos : Option String} {k : String} :
    ∀ {m : List (String × α)}, nextKeyAfter pos m = some k →
    k ∈ akeys m ∧ ∀ p, pos = some p → strLtb p k = true := by
  intro m
  induction m with
  | nil => intro h; exact absurd h (by simp [nextKeyAfter])
  | cons kv rest ih =>
    intro h
    cases pos with
    | none =>
      simp only [nextKeyAfter] at h
      have : kv.1 = k := Option.some.inj h
      refine ⟨?_, ?_⟩
      · rw [← this]; simp [akeys]
      · intro p hp; exact Option.noConfusion hp
    | some p =>
      simp only [nextKeyAfter] at h
      split_ifs at h with h1
      · have : kv.1 = k := Option.some.inj h
        refine ⟨?_, ?_⟩
        · rw [← this]; simp [akeys]
        · intro q hq
          have : q = p := (Option.some.inj hq).symm
          rw [this, ← ‹kv.1 = k›]
          exact h1
      · obtain ⟨hmem, hgt⟩ := ih h
        refine ⟨?_, hgt⟩
        simp [akeys] at hmem ⊢
        exact Or.inr hmem

theorem nextKeyAfter_isSome {α : Type} {pos : Option String} {k : String}
    {m : List (String × α)} (hs : AMSorted m) (h : nextKeyAfter pos m = some k) :
    (alookup k m).isSome = true := by
  rw [alookup_isSome_iff]
  exact (nextKeyAfter_some h).1

/-- Updating an existing key leaves the key list unchanged. -/
theorem akeys_aupdate_of_mem {α : Type} {key : String} :
    ∀ {m : List (String × α)}, AMSorted m → key ∈ akeys m →
    ∀ (f : α → α) (d : α), akeys (aupdate key f d m) = akeys m := by
  intro m
  induction m with
  | nil => intro _ hmem; simp [akeys] at hmem
  | cons kv rest ih =>
    intro hs hmem f d
    have hs' := List.pairwise_cons.mp hs
    simp only [aupdate]
    split_ifs with h1 h2
    · exfalso
      simp only [akeys, List.map_cons, List.mem_cons] at hmem
      rcases hmem with h | h
      · exact strLtb_ne h1 h
      · simp only [akeys, List.mem_map] at h
        obtain ⟨p, hp, he⟩ := h
        exact strLtb_ne (strLtb_trans h1 (hs'.1 p hp)) he.symm
    · simp [akeys, h2]
    · simp only [akeys, List.map_cons]
      simp only [akeys, List.map_cons, List.mem_cons] at hmem
      rcases hmem with h | h
      · exact absurd h h2
      · have := ih hs'.2 h f d
        rw [akeys, akeys] at this
        rw [this]

/-- The effect of the `typesToDependents[pair.first]` erase loop on the
dependency map: every listed dependent (present in the map, the list
duplicate-free) has `k` filtered out of its dependency set; nothing
else changes, and sortedness and the key list are preserved. -/
theorem eraseFold_spec (k : String) : ∀ (D : List String)
    (m : List (String × (GqlType × List String))),
    AMSorted m → D.Nodup → (∀ j ∈ D, j ∈ akeys m) →
    (AMSorted (D.foldl (fun acc d => eraseDependencyOn k d acc) m)
    ∧ akeys (D.foldl (fun acc d => eraseDependencyOn k d acc) m) = akeys m
    ∧ ∀ j, alookup j (D.foldl (fun acc d => eraseDependencyOn k d acc) m)
        = if j ∈ D
          then (alookup j m).map (fun e => (e.1, e.2.filter (fun s => s ≠ k)))
          else alookup j m) := by
  intro D
  induction D with
  | nil =>
    intro m h1 _ _
    refine ⟨h1, rfl, ?_⟩
    intro j
    simp
  | cons d D' ih =>
    intro m h1 hnd hmem
    have hdmem : d ∈ akeys m := hmem d (List.mem_cons_self d D')
    have hnd' := List.nodup_cons.mp hnd
    have hdsome : (alookup d m).isSome = true := (alookup_isSome_iff d m).mpr hdmem
    obtain ⟨e, he⟩ := Option.isSome_iff_exists.mp hdsome
    have hm1sorted : AMSorted (eraseDependencyOn k d m) :=
      AMSorted_aupdate h1 d _ _
    have hm1keys : akeys (eraseDependencyOn k d m) = akeys m :=
      akeys_aupdate_of_mem h1 hdmem _ _
    have hm1look : ∀ j, alookup j (eraseDependencyOn k d m)
        = if j = d then some (e.1, e.2.filter (fun s => s ≠ k)) else alookup j m := by
      intro j
      by_cases hj : j = d
      · rw [if_pos hj, hj, eraseDependencyOn, alookup_aupdate_self h1, he]
        rfl
      · rw [if_neg hj, eraseDependencyOn, alookup_aupdate_ne hj]
    obtain ⟨c1, c2, c3⟩ := ih (eraseDependencyOn k d m) hm1sorted hnd'.2
      (fun j hj => by rw [hm1keys]; exact hmem j (List.mem_cons_of_mem d hj))
    rw [List.foldl_cons]
    refine ⟨c1, by rw [c2, hm1keys], ?_⟩
    intro j
    rw [c3 j]
    by_cases hj1 : j ∈ D'
    · have hjd : j ≠ d := fun hc => hnd'.1 (hc ▸ hj1)
      rw [if_pos hj1, if_pos (List.mem_cons_of_mem d hj1), hm1look j, if_neg hjd]
    · rw [if_neg hj1, hm1look j]
      by_cases hj2 : j = d
      · rw [if_pos hj2, if_pos (by rw [hj2]; exact List.mem_cons_self d D'), hj2, he]
        rfl
      · rw [if_neg hj2, if_neg (by
          intro hc
          rcases List.mem_cons.mp hc with hc | hc
          · exact hj2 hc
          · exact hj1 hc)]

/-- Everything in `cur` lies at or before the iterator position `pos`. -/
def curBelow (pos : Option String) (cur : List String) : Prop :=
  ∀ c ∈ cur, ∃ p, pos = some p ∧ strLtb p c = false

theorem curBelow_lt {pos : Option String} {cur : List String} {k : String}
    (hb : curBelow pos cur) (hgt : ∀ p, pos = some p → strLtb p k = true) :
    ∀ c ∈ cur, strLtb c k = true := by
  intro c hc
  obtain ⟨p, hp, hpc⟩ := hb c hc
  have hpk := hgt p hp
  by_contra hck
  have hck' : strLtb c k = false := by
    cases h : strLtb c k
    · rfl
    · exact absurd h hck
  by_cases hce : c = k
  · rw [hce] at hpc
    rw [hpc] at hpk
    exact Bool.noConfusion hpk
  · rcases strLtb_total hce with h | h
    · rw [h] at hck'; exact Bool.noConfusion hck'
    · have := strLtb_trans hpk h
      rw [hpc] at this
      exact Bool.noConfusion this

theorem curBelow_advance {pos : Option String} {cur : List String} {k : String}
    (hb : curBelow pos cur) (hgt : ∀ p, pos = some p → strLtb p k = true) :
    curBelow (some k) cur := by
  intro c hc
  exact ⟨k, rfl, strLtb_asymm (curBelow_lt hb hgt c hc)⟩

theorem curBelow_snoc {pos : Option String} {cur : List String} {k : String}
    (hb : curBelow pos cur) (hgt : ∀ p, pos = some p → strLtb p k = true) :
    curBelow (some k) (cur ++ [k]) := by
  intro c hc
  rcases List.mem_append.mp hc with hc | hc
  · exact curBelow_advance hb hgt c hc
  · have : c = k := List.mem_singleton.mp hc
    exact ⟨k, rfl, by rw [this]; exact strLtb_irrefl k⟩

theorem chain_snoc {R : String → String → Prop} {cur : List String} {k : String}
    (hc : List.Chain' R cur) (hall : ∀ c ∈ cur, R c k) :
    List.Chain' R (cur ++ [k]) := by
  rw [List.chain'_append]
  refine ⟨hc, List.chain'_singleton k, ?_⟩
  intro x hx y hy
  simp only [List.head?_cons, Option.mem_def, Option.some.injEq] at hy
  subst hy
  obtain ⟨hne, hxe⟩ := List.mem_getLast?_eq_getLast hx
  rw [hxe]
  exact hall _ (List.getLast_mem hne)

theorem filter_pred_snoc {done cur : List String} {k : String} (ds : List String) :
    (ds.filter (fun d => decide (d ∉ done ∧ d ∉ cur))).filter (fun s => s ≠ k)
      = ds.filter (fun d => decide (d ∉ done ∧ d ∉ cur ++ [k])) := by
  rw [List.filter_filter]
  apply List.filter_congr
  intro a _
  by_cases h1 : a = k <;> by_cases h2 : a ∈ done <;> by_cases h3 : a ∈ cur <;>
    simp [h1, h2, h3]

theorem filter_pred_snoc_notmem {done cur : List String} {k : String}
    {ds : List String} (hk : k ∉ ds) :
    ds.filter (fun d => decide (d ∉ done ∧ d ∉ cur))
      = ds.filter (fun d => decide (d ∉ done ∧ d ∉ cur ++ [k])) := by
  apply List.filter_congr
  intro a ha
  have hak : a ≠ k := fun hc => hk (hc ▸ ha)
  by_cases h2 : a ∈ done <;> by_cases h3 : a ∈ cur <;>
    simp [hak, h2, h3]

/-- The single-pass specification: running the range-for from `pos` with
`done` the names erased in earlier passes and `cur` the names already
emitted this pass preserves sortedness and the key list, extends the
invariant and the dependency ordering by the newly added names, keeps
the emission chain strictly ascending, and pairs every emitted type
with its (registered) name. -/
theorem runPass_spec {m₀ : List (String × (GqlType × List String))}
    {dependents : List (String × List String)} (ctx : RegCtx m₀ dependents)
    (done : List String) :
    ∀ (fuel : Nat) (m : List (String × (GqlType × List String)))
      (pos : Option String) (cur : List String),
    AMSorted m →
    PassInv m₀ done cur m →
    DepOrdered m₀ (done ++ cur) →
    (∀ c ∈ cur, c ∉ done) →
    curBelow pos cur →
    List.Chain' (fun a b => strLtb a b = true) cur →
    (AMSorted (runPass dependents fuel m pos).2.2
    ∧ akeys (runPass dependents fuel m pos).2.2 = akeys m
    ∧ PassInv m₀ done (cur ++ (runPass dependents fuel m pos).2.1)
        (runPass dependents fuel m pos).2.2
    ∧ DepOrdered m₀ ((done ++ cur) ++ (runPass dependents fuel m pos).2.1)
    ∧ (∀ c ∈ cur ++ (runPass dependents fuel m pos).2.1, c ∉ done)
    ∧ List.Chain' (fun a b => strLtb a b = true)
        (cur ++ (runPass dependents fuel m pos).2.1)
    ∧ (∀ a ∈ (runPass dependents fuel m pos).2.1, a ∈ akeys m)
    ∧ List.Forall₂ (fun t k => ∃ ds, alookup k m₀ = some (t, ds))
        (runPass dependents fuel m pos).1 (runPass dependents fuel m pos).2.1) := by
  intro fuel
  induction fuel with
  | zero =>
    intro m pos cur h1 h2 h3 h4 h5 h6
    simp only [runPass]
    refine ⟨h1, trivial, by simpa using h2, by simpa using h3,
      fun c hc => h4 c (by simpa using hc), by simpa using h6,
      fun a ha => absurd ha (by simp), List.Forall₂.nil⟩
  | succ fuel ih =>
    intro m pos cur h1 h2 h3 h4 h5 h6
    cases hnext : nextKeyAfter pos m with
    | none =>
      simp only [runPass, hnext]
      refine ⟨h1, trivial, by simpa using h2, by simpa using h3,
        fun c hc => h4 c (by simpa using hc), by simpa using h6,
        fun a ha => absurd ha (by simp), List.Forall₂.nil⟩
    | some k =>
      have hkfacts := nextKeyAfter_some (m := m) hnext
      cases hke : alookup k m with
      | none =>
        exfalso
        have := (alookup_isSome_iff k m).mpr hkfacts.1
        rw [hke] at this
        exact Bool.noConfusion this
      | some e =>
        have hkreg : k ∈ akeys m₀ := PassInv_keys_sub h2 hkfacts.1
        obtain ⟨v0, hl0'⟩ := Option.isSome_iff_exists.mp ((alookup_isSome_iff k m₀).mpr hkreg)
        obtain ⟨t, ds⟩ := v0
        have hifeq := (h2 k).2 t ds hl0'
        rw [hke] at hifeq
        have hkdone : k ∉ done := by
          intro hc
          rw [if_pos hc] at hifeq
          exact Option.noConfusion hifeq
        rw [if_neg hkdone] at hifeq
        have hee : e = (t, ds.filter (fun d => decide (d ∉ done ∧ d ∉ cur))) :=
          Option.some.inj hifeq
        have hkcur : k ∉ cur := by
          intro hc
          have := curBelow_lt h5 hkfacts.2 k hc
          rw [strLtb_irrefl] at this
          exact Bool.noConfusion this
        by_cases hemp : e.2.isEmpty
        · -- emission step
          have hflt : ds.filter (fun d => decide (d ∉ done ∧ d ∉ cur)) = [] := by
            have : e.2 = [] := List.isEmpty_iff.mp hemp
            rw [hee] at this
            exact this
          have hds_sub : ∀ d ∈ ds, d ∈ done ++ cur := by
            intro d hd
            have := List.filter_eq_nil.mp hflt d hd
            simp only [decide_eq_true_eq, not_and, not_not] at this
            rw [List.mem_append]
            by_cases hdd : d ∈ done
            · exact Or.inl hdd
            · exact Or.inr (by
                by_contra hdc
                exact absurd (this hdd) hdc)
          have hord' : DepOrdered m₀ ((done ++ cur) ++ [k]) := by
            apply DepOrdered_snoc h3
            intro t' ds' hl' d hd
            rw [hl0'] at hl'
            obtain ⟨he1, he2⟩ := Prod.mk.injEq .. ▸ Option.some.inj hl'
            exact hds_sub d (he2 ▸ hd)
          have hDnotdone : ∀ j ∈ (alookup k dependents).getD [], j ∉ done := by
            intro j hj hjdone
            obtain ⟨tj, dsj, hlj, hkin⟩ := (ctx.dentsIff k j).mp hj
            have hkin' : k ∈ done ++ cur :=
              DepOrdered_mem h3 (List.mem_append.mpr (Or.inl hjdone)) hlj hkin
            rcases List.mem_append.mp hkin' with hc | hc
            · exact hkdone hc
            · exact hkcur hc
          have hDmem : ∀ j ∈ (alookup k dependents).getD [], j ∈ akeys m := by
            intro j hj
            obtain ⟨tj, dsj, hlj, hkin⟩ := (ctx.dentsIff k j).mp hj
            have := (h2 j).2 tj dsj hlj
            rw [if_neg (hDnotdone j hj)] at this
            rw [← alookup_isSome_iff, this]
            rfl
          obtain ⟨e1, e2, e3⟩ := eraseFold_spec k ((alookup k dependents).getD []) m
            h1 (ctx.dentsNodup k) hDmem
          have hpi' : PassInv m₀ done (cur ++ [k])
              (((alookup k dependents).getD []).foldl
                (fun acc d => eraseDependencyOn k d acc) m) := by
            intro j
            constructor
            · intro hjn
              rw [e3 j]
              have hjD : j ∉ (alookup k dependents).getD [] := by
                intro hc
                obtain ⟨tj, dsj, hlj, _⟩ := (ctx.dentsIff k j).mp hc
                rw [hjn] at hlj
                exact Option.noConfusion hlj
              rw [if_neg hjD]
              exact (h2 j).1 hjn
            · intro t' ds' hl'
              rw [e3 j]
              by_cases hjD : j ∈ (alookup k dependents).getD []
              · rw [if_pos hjD]
                have hjdone := hDnotdone j hjD
                have hold := (h2 j).2 t' ds' hl'
                rw [if_neg hjdone] at hold
                rw [hold, if_neg hjdone]
                simp only [Option.map_some']
                rw [filter_pred_snoc]
              · rw [if_neg hjD]
                have hold := (h2 j).2 t' ds' hl'
                by_cases hjdone : j ∈ done
                · rw [if_pos hjdone] at hold ⊢
                  exact hold
                · rw [if_neg hjdone] at hold ⊢
                  rw [hold]
                  have hknotin : k ∉ ds' := by
                    intro hc
                    exact hjD ((ctx.dentsIff k j).mpr ⟨t', ds', hl', hc⟩)
                  rw [filter_pred_snoc_notmem hknotin]
          have hcur' : ∀ c ∈ cur ++ [k], c ∉ done := by
            intro c hc
            rcases List.mem_append.mp hc with hc | hc
            · exact h4 c hc
            · rw [List.mem_singleton.mp hc]
              exact hkdone
          have hbelow' := curBelow_snoc h5 hkfacts.2
          have hchain' := chain_snoc h6 (curBelow_lt h5 hkfacts.2)
          have hord'' : DepOrdered m₀ (done ++ (cur ++ [k])) := by
            rw [← List.append_assoc]
            exact hord'
          obtain ⟨c1, c2, c3, c4, c5, c6, c7, c8⟩ := ih
            (((alookup k dependents).getD []).foldl
              (fun acc d => eraseDependencyOn k d acc) m)
            (some k) (cur ++ [k]) e1 hpi' hord'' hcur' hbelow' hchain'
          have hrp : runPass dependents (fuel + 1) m pos
              = (e.1 :: (runPass dependents fuel
                    (((alookup k dependents).getD []).foldl
                      (fun acc d => eraseDependencyOn k d acc) m) (some k)).1,
                 k :: (runPass dependents fuel
                    (((alookup k dependents).getD []).foldl
                      (fun acc d => eraseDependencyOn k d acc) m) (some k)).2.1,
                 (runPass dependents fuel
                    (((alookup k dependents).getD []).foldl
                      (fun acc d => eraseDependencyOn k d acc) m) (some k)).2.2) := by
            simp only [runPass, hnext, hke]
            rw [if_pos hemp]
          rw [hrp]
          have happ : ∀ (x : List String), cur ++ (k :: x) = (cur ++ [k]) ++ x := by
            intro x
            simp
          refine ⟨c1, by rw [c2, e2], ?_, ?_, ?_, ?_, ?_, ?_⟩
          · rw [happ]
            exact c3
          · have happ2 : ∀ (x : List String),
                (done ++ cur) ++ (k :: x) = (done ++ (cur ++ [k])) ++ x := by
              intro x
              simp
            rw [happ2]
            exact c4
          · intro c hc
            rw [happ] at hc
            exact c5 c hc
          · rw [happ]
            exact c6
          · intro a ha
            rcases List.mem_cons.mp ha with ha | ha
            · rw [ha]; exact hkfacts.1
            · rw [← e2]; exact c7 a ha
          · refine List.Forall₂.cons ?_ c8
            rw [hee]
            exact ⟨ds, hl0'⟩
        · -- skip step
          have hrp : runPass dependents (fuel + 1) m pos
              = runPass dependents fuel m (some k) := by
            simp only [runPass, hnext, hke]
            rw [if_neg hemp]
          rw [hrp]
          exact ih m (some k) cur h1 h2 h3 h4 (curBelow_advance h5 hkfacts.2) h6

/-- The `addedTypeNames` erase loop at the end of a pass: removes exactly
the added keys. -/
theorem eraseAll_spec : ∀ (added : List String)
    (M : List (String × (GqlType × List String))),
    AMSorted M → added.Nodup → (∀ a ∈ added, a ∈ akeys M) →
    (AMSorted (added.foldl (fun acc k => aerase k acc) M)
    ∧ (added.foldl (fun acc k => aerase k acc) M).length = M.length - added.length
    ∧ ∀ j, alookup j (added.foldl (fun acc k => aerase k acc) M)
        = if j ∈ added then none else alookup j M) := by
  intro added
  induction added with
  | nil =>
    intro M h1 _ _
    refine ⟨h1, by simp, ?_⟩
    intro j
    simp
  | cons a rest ih =>
    intro M h1 hnd hmem
    have hnd' := List.nodup_cons.mp hnd
    have hamem : a ∈ akeys M := hmem a (List.mem_cons_self a rest)
    have hM1sorted : AMSorted (aerase a M) := AMSorted_aerase h1 a
    have hM1len : (aerase a M).length = M.length - 1 := by
      rw [length_aerase_of_nodup h1, if_pos hamem]
    have hM1mem : ∀ b ∈ rest, b ∈ akeys (aerase a M) := by
      intro b hb
      have hbne : b ≠ a := fun hc => hnd'.1 (hc ▸ hb)
      rw [← alookup_isSome_iff, alookup_aerase_ne hbne, alookup_isSome_iff]
      exact hmem b (List.mem_cons_of_mem a hb)
    obtain ⟨c1, c2, c3⟩ := ih (aerase a M) hM1sorted hnd'.2 hM1mem
    rw [List.foldl_cons]
    refine ⟨c1, ?_, ?_⟩
    · rw [c2, hM1len, List.length_cons]
      omega
    · intro j
      rw [c3 j]
      by_cases hj1 : j ∈ rest
      · rw [if_pos hj1, if_pos (List.mem_cons_of_mem a hj1)]
      · rw [if_neg hj1]
        by_cases hj2 : j = a
        · rw [hj2, if_pos (List.mem_cons_self a rest)]
          exact alookup_aerase_self a M
        · rw [alookup_aerase_ne hj2, if_neg (by
            intro hc
            rcases List.mem_cons.mp hc with hc | hc
            · exact hj2 hc
            · exact hj1 hc)]

theorem PassInv_after_erase {m₀ : List (String × (GqlType × List String))}
    {done added : List String}
    {m M' : List (String × (GqlType × List String))}
    (h : PassInv m₀ done added m)
    (hlook : ∀ j, alookup j M' = if j ∈ added then none else alookup j m) :
    PassInv m₀ (done ++ added) [] M' := by
  intro j
  constructor
  · intro hjn
    rw [hlook j]
    by_cases hj : j ∈ added
    · rw [if_pos hj]
    · rw [if_neg hj]
      exact (h j).1 hjn
  · intro t ds hl
    rw [hlook j]
    by_cases hj : j ∈ added
    · rw [if_pos hj, if_pos (List.mem_append.mpr (Or.inr hj))]
    · rw [if_neg hj]
      have hold := (h j).2 t ds hl
      by_cases hjd : j ∈ done
      · rw [if_pos hjd] at hold
        rw [hold, if_pos (List.mem_append.mpr (Or.inl hjd))]
      · rw [if_neg hjd] at hold
        rw [hold, if_neg (by
          intro hc
          rcases List.mem_append.mp hc with hc | hc
          · exact hjd hc
          · exact hj hc)]
        congr 2
        apply List.filter_congr
        intro d _
        by_cases hd1 : d ∈ done <;> by_cases hd2 : d ∈ added <;>
          simp [hd1, hd2]

/-- The elimination loop, `ok` case: whatever the loop returns extends
`done` to a dependency-ordered, duplicate-free enumeration that covers
every registered name, with every returned type paired with its
registered entry. -/
theorem sortLoop_spec {m₀ : List (String × (GqlType × List String))}
    {dependents : List (String × List String)} (ctx : RegCtx m₀ dependents) :
    ∀ (fuel : Nat) (m : List (String × (GqlType × List String))) (done : List String),
    AMSorted m →
    PassInv m₀ done [] m →
    DepOrdered m₀ done →
    done.Nodup →
    ∀ l, sortLoop dependents fuel m = .ok l →
    ∃ added : List String,
      List.Forall₂ (fun t k => ∃ ds, alookup k m₀ = some (t, ds)) l added
      ∧ DepOrdered m₀ (done ++ added)
      ∧ (done ++ added).Nodup
      ∧ (∀ k ∈ akeys m₀, k ∈ done ++ added)
      ∧ (∀ a ∈ added, a ∈ akeys m ∧ a ∉ done) := by
  intro fuel
  induction fuel with
  | zero =>
    intro m done h1 h2 h3 h4 l hok
    simp only [sortLoop] at hok
    split_ifs at hok with hempty
    · have hl : l = [] := (Except.ok.inj hok).symm
      have hm : m = [] := List.isEmpty_iff.mp hempty
      subst hl
      refine ⟨[], List.Forall₂.nil, by simpa using h3, by simpa using h4, ?_, by simp⟩
      intro k hk
      rw [← alookup_isSome_iff] at hk
      obtain ⟨v, hv⟩ := Option.isSome_iff_exists.mp hk
      obtain ⟨t, ds⟩ := v
      have := (h2 k).2 t ds hv
      rw [hm] at this
      simp only [alookup] at this
      by_cases hkd : k ∈ done
      · simpa using hkd
      · rw [if_neg hkd] at this
        exact Option.noConfusion this
  | succ fuel ih =>
    intro m done h1 h2 h3 h4 l hok
    by_cases hempty : m.isEmpty
    · simp only [sortLoop] at hok
      rw [if_pos hempty] at hok
      have hl : l = [] := (Except.ok.inj hok).symm
      have hm : m = [] := List.isEmpty_iff.mp hempty
      subst hl
      refine ⟨[], List.Forall₂.nil, by simpa using h3, by simpa using h4, ?_, by simp⟩
      intro k hk
      rw [← alookup_isSome_iff] at hk
      obtain ⟨v, hv⟩ := Option.isSome_iff_exists.mp hk
      obtain ⟨t, ds⟩ := v
      have := (h2 k).2 t ds hv
      rw [hm] at this
      simp only [alookup] at this
      by_cases hkd : k ∈ done
      · simpa using hkd
      · rw [if_neg hkd] at this
        exact Option.noConfusion this
    · have hord0 : DepOrdered m₀ (done ++ []) := by simpa using h3
      have hspec := runPass_spec ctx done
        (m.length + dependentsSize dependents + 1) m none [] h1 h2 hord0
        (by simp) (by intro c hc; exact absurd hc (by simp)) List.chain'_nil
      obtain ⟨c1, c2, c3, c4, c5, c6, c7, c8⟩ := hspec
      have c3n : PassInv m₀ done
          ((runPass dependents (m.length + dependentsSize dependents + 1) m none).2.1)
          ((runPass dependents (m.length + dependentsSize dependents + 1) m none).2.2) := by
        simpa using c3
      have c4n : DepOrdered m₀
          (done ++ (runPass dependents
            (m.length + dependentsSize dependents + 1) m none).2.1) := by
        simpa using c4
      have c5n : ∀ c ∈ (runPass dependents
          (m.length + dependentsSize dependents + 1) m none).2.1, c ∉ done := by
        intro c hc
        exact c5 c (by simpa using hc)
      have c6n : List.Chain' (fun a b => strLtb a b = true)
          ((runPass dependents (m.length + dependentsSize dependents + 1) m none).2.1) := by
        simpa using c6
      have haddnd : (runPass dependents (m.length + dependentsSize dependents + 1)
          m none).2.1.Nodup := by
        have hpw := List.chain'_iff_pairwise.mp c6n
        exact hpw.imp (fun h => strLtb_ne h)
      have hmemM : ∀ a ∈ (runPass dependents (m.length + dependentsSize dependents + 1)
          m none).2.1, a ∈ akeys (runPass dependents
            (m.length + dependentsSize dependents + 1) m none).2.2 := by
        intro a ha
        rw [c2]
        exact c7 a ha
      obtain ⟨d1, d2, d3⟩ := eraseAll_spec _ _ c1 haddnd hmemM
      simp only [sortLoop] at hok
      rw [if_neg hempty] at hok
      split_ifs at hok with hsize
      cases hrec : sortLoop dependents fuel
          ((runPass dependents (m.length + dependentsSize dependents + 1)
            m none).2.1.foldl (fun acc k => aerase k acc)
            (runPass dependents (m.length + dependentsSize dependents + 1)
              m none).2.2) with
      | error e =>
        rw [hrec] at hok
        exact Except.noConfusion hok
      | ok rest =>
        rw [hrec] at hok
        have hl : l = (runPass dependents
            (m.length + dependentsSize dependents + 1) m none).1 ++ rest :=
          (Except.ok.inj hok).symm
        have hpi' := PassInv_after_erase c3n d3
        have hnd' : (done ++ (runPass dependents
            (m.length + dependentsSize dependents + 1) m none).2.1).Nodup := by
          rw [List.nodup_append]
          exact ⟨h4, haddnd, fun a ha hc => (c5n a hc) ha⟩
        obtain ⟨added', e1, e2, e3', e4, e5⟩ := ih _ _ d1 hpi' c4n hnd' rest hrec
        refine ⟨(runPass dependents (m.length + dependentsSize dependents + 1)
            m none).2.1 ++ added', ?_, ?_, ?_, ?_, ?_⟩
        · rw [hl]
          exact List.rel_append c8 e1
        · rw [← List.append_assoc]
          exact e2
        · rw [← List.append_assoc]
          exact e3'
        · intro k hk
          rw [← List.append_assoc]
          exact e4 k hk
        · intro a ha
          rcases List.mem_append.mp ha with ha | ha
          · exact ⟨c7 a ha, c5n a ha⟩
          · obtain ⟨haM, hadone⟩ := e5 a ha
            constructor
            · have hsome := (alookup_isSome_iff a _).mpr haM
              rw [d3 a] at hsome
              split_ifs at hsome with hcc
              · exact absurd hsome (by simp)
              · rw [← c2]
                exact (alookup_isSome_iff a _).mp hsome
            · intro hc
              exact hadone (List.mem_append.mpr (Or.inl hc))

/-- Distinct custom names give the elimination loop its context. -/
theorem regCtx_of_nodup {types : List GqlType}
    (hnd : (customNames types).Nodup) :
    RegCtx (registerTypes types).typesToDependencies
      (registerTypes types).typesToDependents := by
  have inv := registerTypes_inv types
  refine ⟨inv.sortedDeps, ?_, ?_, ?_⟩
  · intro k t ds hl
    have hsome : (alookup k (registerTypes types).typesToDependencies).isSome = true := by
      rw [hl]; rfl
    rw [inv.depNames k] at hsome
    simp only [customNames, List.mem_map] at hsome
    obtain ⟨u, hu, hname⟩ := hsome
    have hu' := List.mem_filter.mp hu
    have hval := inv.depVal hnd u hu'.1 (by simpa using hu'.2)
    rw [hname, hl] at hval
    have he := Option.some.inj hval
    have ht : t = u := congrArg Prod.fst he
    rw [ht, hname]
  · intro k
    exact (inv.setsSorted k).imp (fun h => strLtb_ne h)
  · intro k j
    rw [inv.dentsMem k j]
    constructor
    · intro ⟨t, ht, hct, hname, hk⟩
      refine ⟨t, insortAll (typeDependencyNames t), ?_, ?_⟩
      · rw [← hname]
        exact inv.depVal hnd t ht hct
      · rw [mem_insortAll]
        exact hk
    · intro ⟨t, ds, hl, hk⟩
      have hsome : (alookup j (registerTypes types).typesToDependencies).isSome = true := by
        rw [hl]; rfl
      rw [inv.depNames j] at hsome
      simp only [customNames, List.mem_map] at hsome
      obtain ⟨u, hu, hname⟩ := hsome
      have hu' := List.mem_filter.mp hu
      have hval := inv.depVal hnd u hu'.1 (by simpa using hu'.2)
      rw [hname, hl] at hval
      have he := Option.some.inj hval
      have ht : t = u := congrArg Prod.fst he
      have hds : ds = insortAll (typeDependencyNames u) := congrArg Prod.snd he
      refine ⟨u, hu'.1, by simpa using hu'.2, hname, ?_⟩
      rw [hds, mem_insortAll] at hk
      exact hk

/-- From each returned type to its registered name: the Forall₂ of
`sortLoop_spec` says the names list is exactly the map of `·.name`. -/
theorem forall2_names {m₀ : List (String × (GqlType × List String))}
    (hname : ∀ k t ds, alookup k m₀ = some (t, ds) → t.name = k) :
    ∀ {l : List GqlType} {added : List String},
    List.Forall₂ (fun t k => ∃ ds, alookup k m₀ = some (t, ds)) l added →
    l.map (fun t => t.name) = added := by
  intro l
  induction l with
  | nil =>
    intro added h
    cases h
    rfl
  | cons t ts ih =>
    intro added h
    cases h with
    | cons hpair htail =>
      obtain ⟨ds, hds⟩ := hpair
      simp only [List.map_cons]
      rw [hname _ t ds hds, ih htail]

/-- The returned list is the pointwise lookup of the emitted names. -/
theorem forall2_values {m₀ : List (String × (GqlType × List String))} :
    ∀ {l : List GqlType} {added : List String},
    List.Forall₂ (fun t k => ∃ ds, alookup k m₀ = some (t, ds)) l added →
    l = added.map (fun k => ((alookup k m₀).map Prod.fst).getD defaultGqlType) := by
  intro l
  induction l with
  | nil =>
    intro added h
    cases h
    rfl
  | cons t ts ih =>
    intro added h
    cases h with
    | cons hpair htail =>
      obtain ⟨ds, hds⟩ := hpair
      simp only [List.map_cons]
      rw [ih htail]
      congr 1
      rw [hds]
      rfl

theorem forall2_get {R : GqlType → String → Prop} :
    ∀ {l : List GqlType} {added : List String},
    List.Forall₂ R l added →
    ∀ i (h1 : i < l.length) (h2 : i < added.length),
      R (l.get ⟨i, h1⟩) (added.get ⟨i, h2⟩) := by
  intro l
  induction l with
  | nil =>
    intro added h i h1 h2
    simp at h1
  | cons t ts ih =>
    intro added h i h1 h2
    cases h with
    | cons hpair htail =>
      cases i with
      | zero => exact hpair
      | succ n => exact ih htail n (by simpa using h1) (by simpa using h2)

/-- Full soundness of the sorter under distinct custom names: an `.ok`
result is a permutation of the custom types that respects every
dependency edge. -/
theorem sortCustomTypes_ok_spec (types : List GqlType)
    (hnd : (customNames types).Nodup) (l : List GqlType)
    (hok : sortCustomTypesByDependencyOrder types = .ok l) :
    l.Perm (types.filter (fun t => customEntry t))
    ∧ ∀ i j (hi : i < l.length) (hj : j < l.length),
        (l.get ⟨j, hj⟩).name ∈ typeDependencyNames (l.get ⟨i, hi⟩) → j < i := by
  have inv := registerTypes_inv types
  have ctx := regCtx_of_nodup hnd
  have hok' : sortLoop (registerTypes types).typesToDependents
      ((registerTypes types).typesToDependencies.length + 1)
      (registerTypes types).typesToDependencies = .ok l := hok
  have hbase : PassInv (registerTypes types).typesToDependencies [] []
      (registerTypes types).typesToDependencies := by
    intro k
    refine ⟨fun h => h, ?_⟩
    intro t ds hl
    have hfilt : ds.filter
        (fun d => decide (d ∉ ([] : List String) ∧ d ∉ ([] : List String))) = ds := by
      simp
    rw [hl, if_neg (by simp), hfilt]
  obtain ⟨added, hf2, hord, hnodup, hcov, hsub⟩ :=
    sortLoop_spec ctx _ (registerTypes types).typesToDependencies []
      inv.sortedDeps hbase (by intro i hi; simp at hi) List.nodup_nil l hok'
  rw [List.nil_append] at hord
  have haddednd : added.Nodup := by simpa using hnodup
  have hcov' : ∀ k ∈ akeys (registerTypes types).typesToDependencies, k ∈ added := by
    intro k hk
    simpa using hcov k hk
  have hsub' : ∀ a ∈ added, a ∈ akeys (registerTypes types).typesToDependencies :=
    fun a ha => (hsub a ha).1
  have hnames : l.map (fun t => t.name) = added := forall2_names ctx.nameOk hf2
  have hlen : l.length = added.length := by
    rw [← hnames, List.length_map]
  have hpermA : added.Perm (customNames types) := by
    refine List.perm_of_nodup_nodup_toFinset_eq haddednd hnd ?_
    ext a
    simp only [List.mem_toFinset]
    constructor
    · intro ha
      have hk := hsub' a ha
      rw [← alookup_isSome_iff] at hk
      exact (inv.depNames a).mp (by simpa using hk)
    · intro ha
      have hk := (inv.depNames a).mpr ha
      exact hcov' a ((alookup_isSome_iff a _).mp (by simpa using hk))
  have hlf := forall2_values hf2
  have hmapf : (customNames types).map
      (fun k => ((alookup k (registerTypes types).typesToDependencies).map
        Prod.fst).getD defaultGqlType)
      = types.filter (fun t => customEntry t) := by
    rw [customNames, List.map_map]
    have hmem : ∀ t ∈ types.filter (fun t => customEntry t),
        ((fun k => ((alookup k (registerTypes types).typesToDependencies).map
          Prod.fst).getD defaultGqlType) ∘ (fun t => t.name)) t = id t := by
      intro t ht
      have ht' := List.mem_filter.mp ht
      have hval := inv.depVal hnd t ht'.1 ht'.2
      simp only [Function.comp_apply, id_eq]
      rw [hval]
      rfl
    rw [List.map_congr_left hmem, List.map_id]
  have hperm : l.Perm (types.filter (fun t => customEntry t)) := by
    rw [hlf, ← hmapf]
    exact hpermA.map _
  refine ⟨hperm, ?_⟩
  intro i j hi hj hdep
  have hi' : i < added.length := hlen ▸ hi
  have hj' : j < added.length := hlen ▸ hj
  have hgetn : ∀ p (hp : p < l.length) (hp' : p < added.length),
      added.get ⟨p, hp'⟩ = (l.get ⟨p, hp⟩).name := by
    intro p hp hp'
    have h2 := List.getElem_of_eq hnames.symm hp'
    rw [List.get_eq_getElem, h2, List.getElem_map]
    rfl
  have hTmem : l.get ⟨i, hi⟩ ∈ types.filter (fun t => customEntry t) :=
    hperm.mem_iff.mp (l.get_mem _ _)
  have hTmem' := List.mem_filter.mp hTmem
  have hlookT : alookup (l.get ⟨i, hi⟩).name (registerTypes types).typesToDependencies
      = some (l.get ⟨i, hi⟩, insortAll (typeDependencyNames (l.get ⟨i, hi⟩))) :=
    inv.depVal hnd _ hTmem'.1 hTmem'.2
  have hdep' : (l.get ⟨j, hj⟩).name ∈ insortAll (typeDependencyNames (l.get ⟨i, hi⟩)) :=
    (mem_insortAll _ _).mpr hdep
  have htake : (l.get ⟨j, hj⟩).name ∈ added.take i := by
    exact hord i hi' (l.get ⟨i, hi⟩)
      (insortAll (typeDependencyNames (l.get ⟨i, hi⟩)))
      (by rw [hgetn i hi hi']; exact hlookT) _ hdep'
  obtain ⟨⟨p, hp⟩, hpeq⟩ := List.mem_iff_get.mp htake
  have hplen : p < added.length := by
    have := hp
    rw [List.length_take] at this
    omega
  have hpi : p < i := by
    have := hp
    rw [List.length_take] at this
    omega
  have hpadded : added.get ⟨p, hplen⟩ = (l.get ⟨j, hj⟩).name := by
    rw [← hpeq, List.get_eq_getElem, List.get_eq_getElem, List.getElem_take]
  have hinj := List.nodup_iff_injective_get.mp haddednd
  have hpj : (⟨p, hplen⟩ : Fin added.length) = ⟨j, hj'⟩ := by
    apply hinj
    rw [hpadded, hgetn j hj hj']
  have : p = j := by
    have := congrArg Fin.val hpj
    simpa using this
  omega

/-! ## Concrete schemas used by the claim theorems -/

/-- An object type named `n` with one field per name in `deps`, each field
referencing the type of that name. -/
def objType (n : String) (deps : List String) : GqlType :=
  { kind := .Object, name := n, description := "",
    fields := deps.map (fun d =>
      { type := .mk .Object (some d) none, name := "f", description := "",
        args := [] }),
    inputFields := [], interfaces := [], enumValues := [], possibleTypes := [] }

/-- A custom type named `X` (description `one`). -/
def dupX1 : GqlType :=
  { kind := .Object, name := "X", description := "one", fields := [],
    inputFields := [], interfaces := [], enumValues := [], possibleTypes := [] }

/-- A second, different custom type also named `X` (description `two`). -/
def dupX2 : GqlType :=
  { kind := .Object, name := "X", description := "two", fields := [],
    inputFields := [], interfaces := [], enumValues := [], possibleTypes := [] }

/-- C1 (amended: the input's custom-type names must be distinct; the C++
`std::map` keys entries by name, so a duplicated name silently drops a
type — see the counterexample).  Under distinct custom names, whenever
`sortCustomTypesByDependencyOrder` returns a list, that list is a
permutation of exactly the custom types of the input (kind Object,
Interface, Union, Enum or InputObject, name not starting `__`), and every
custom dependency appears at a strictly smaller index than its
dependent. -/
theorem C1_sort_exact_and_dependency_ordered (types : List GqlType)
    (hnd : (customNames types).Nodup) (l : List GqlType)
    (hok : sortCustomTypesByDependencyOrder types = .ok l) :
    l.Perm (types.filter (fun t => customEntry t))
    ∧ ∀ i j (hi : i < l.length) (hj : j < l.length),
        (l.get ⟨j, hj⟩).name ∈ typeDependencyNames (l.get ⟨i, hi⟩) → j < i :=
  sortCustomTypes_ok_spec types hnd l hok

/-- C1 witness: a two-type schema where `B` references `A`; the sorter
returns `[A, B]`, a dependency-ordered permutation of the custom types. -/
theorem C1_sort_exact_and_dependency_ordered_witness :
    (customNames [objType "B" ["A"], objType "A" []]).Nodup
    ∧ sortCustomTypesByDependencyOrder [objType "B" ["A"], objType "A" []]
        = .ok [objType "A" [], objType "B" ["A"]]
    ∧ [objType "A" [], objType "B" ["A"]].Perm
        ([objType "B" ["A"], objType "A" []].filter (fun t => customEntry t)) :=
  ⟨by decide, by decide,
    (C1_sort_exact_and_dependency_ordered [objType "B" ["A"], objType "A" []]
      (by decide) [objType "A" [], objType "B" ["A"]] (by decide)).1⟩

/-- C1 counterexample: the claim quantifies over every input, but two
distinct custom types sharing the name `X` collapse to one map entry, so
the output is not "exactly the custom types of the input": `dupX1` is a
custom type of the input yet missing from the output. -/
theorem C1_counterexample_duplicate_name_drops_type :
    sortCustomTypesByDependencyOrder [dupX1, dupX2] = .ok [dupX2]
    ∧ customEntry dupX1 = true
    ∧ dupX1 ≠ dupX2 := by
  refine ⟨by decide, by decide, by decide⟩

/-! ## Order-independence of the registration state -/

/-- Two strictly sorted name lists with the same members are equal. -/
theorem SSorted_ext : ∀ {l₁ l₂ : List String}, SSorted l₁ → SSorted l₂ →
    (∀ x, x ∈ l₁ ↔ x ∈ l₂) → l₁ = l₂ := by
  intro l₁
  induction l₁ with
  | nil =>
    intro l₂ _ _ hm
    cases l₂ with
    | nil => rfl
    | cons y ys =>
      have := (hm y).mpr (List.mem_cons_self y ys)
      simp at this
  | cons x xs ih =>
    intro l₂ h1 h2 hm
    cases l₂ with
    | nil =>
      have := (hm x).mp (List.mem_cons_self x xs)
      simp at this
    | cons y ys =>
      have h1' := List.pairwise_cons.mp h1
      have h2' := List.pairwise_cons.mp h2
      have hxy : x = y := by
        rcases List.mem_cons.mp ((hm x).mp (List.mem_cons_self x xs)) with h | h
        · exact h
        · rcases List.mem_cons.mp ((hm y).mpr (List.mem_cons_self y ys)) with h' | h'
          · exact h'.symm
          · have hxy2 := h1'.1 y h'
            have hyx := h2'.1 x h
            rw [strLtb_asymm hxy2] at hyx
            simp at hyx
      subst hxy
      have htails : ∀ z, z ∈ xs ↔ z ∈ ys := by
        intro z
        constructor
        · intro hz
          rcases List.mem_cons.mp ((hm z).mp (List.mem_cons.mpr (Or.inr hz))) with h | h
          · have := h1'.1 z hz
            rw [h, strLtb_irrefl x] at this
            simp at this
          · exact h
        · intro hz
          rcases List.mem_cons.mp ((hm z).mpr (List.mem_cons.mpr (Or.inr hz))) with h | h
          · have := h2'.1 z hz
            rw [h, strLtb_irrefl x] at this
            simp at this
          · exact h
      rw [ih h1'.2 h2'.2 htails]

/-- Every binding of an updated map is either an `f`-image or an old
binding. -/
theorem alookup_aupdate_cases {α : Type} {k n : String} (f : α → α) (d : α) :
    ∀ (m : List (String × α)) (v : α), alookup k (aupdate n f d m) = some v →
    (∃ v0, v = f v0) ∨ alookup k m = some v := by
  intro m
  induction m with
  | nil =>
    intro v hv
    simp only [aupdate, alookup] at hv
    by_cases h : k = n
    · rw [if_pos h] at hv
      exact Or.inl ⟨d, (Option.some.inj hv).symm⟩
    · rw [if_neg h] at hv
      simp at hv
  | cons kv rest ih =>
    intro v hv
    obtain ⟨k', w⟩ := kv
    simp only [aupdate] at hv
    split_ifs at hv with h1 h2
    · simp only [alookup] at hv ⊢
      by_cases h3 : k = n
      · rw [if_pos h3] at hv
        exact Or.inl ⟨d, (Option.some.inj hv).symm⟩
      · rw [if_neg h3] at hv
        exact Or.inr hv
    · subst h2
      simp only [alookup] at hv ⊢
      by_cases h3 : k = n
      · rw [if_pos h3] at hv ⊢
        exact Or.inl ⟨w, (Option.some.inj hv).symm⟩
      · rw [if_neg h3] at hv ⊢
        exact Or.inr hv
    · simp only [alookup] at hv ⊢
      by_cases h3 : k = k'
      · rw [if_pos h3] at hv ⊢
        exact Or.inr hv
      · rw [if_neg h3] at hv ⊢
        exact ih v hv

theorem insortStr_ne_nil (x : String) (l : List String) : insortStr x l ≠ [] := by
  intro h
  have : x ∈ insortStr x l := (mem_insortStr x x l).mpr (Or.inl rfl)
  rw [h] at this
  simp at this

/-- Every dependents-map value built by registration is non-empty (an
entry is only created to receive its first dependent). -/
theorem registerTypes_dents_nonempty (types : List GqlType) :
    ∀ k v, alookup k (registerTypes types).typesToDependents = some v → v ≠ [] := by
  have hfold : ∀ (tn : String) (refs : List TypeRef)
      (dm : List (String × List String)) (acc : List String),
      (∀ k v, alookup k dm = some v → v ≠ []) →
      ∀ k v, alookup k (refs.foldl (addDependency tn) (dm, acc)).1 = some v → v ≠ [] := by
    intro tn refs
    induction refs with
    | nil => intro dm acc h; exact h
    | cons r rs ihr =>
      intro dm acc h
      simp only [List.foldl_cons]
      rw [addDependency_eq]
      cases hd : depRefName r with
      | none => exact ihr dm acc h
      | some dn =>
        refine ihr _ _ ?_
        intro k v hv
        rcases alookup_aupdate_cases (insortStr tn) [] dm v hv with ⟨v0, hv0⟩ | hold
        · rw [hv0]
          exact insortStr_ne_nil tn v0
        · exact h k v hold
  suffices hgen : ∀ (ts : List GqlType) (st : SortState),
      (∀ k v, alookup k st.typesToDependents = some v → v ≠ []) →
      ∀ k v, alookup k (ts.foldl registerType st).typesToDependents = some v → v ≠ [] by
    exact hgen types ⟨[], []⟩ (by intro k v hv; simp [alookup] at hv)
  intro ts
  induction ts with
  | nil => intro st h; exact h
  | cons t rest ihr =>
    intro st h
    simp only [List.foldl_cons]
    refine ihr (registerType st t) ?_
    rw [registerType]
    split_ifs with hc
    · exact hfold t.name (typeDependencyRefs t) st.typesToDependents [] h
    · exact h

/-- The registration state is a function of the set of input types: any
permutation of an input with distinct custom names registers to the
identical state. -/
theorem registerTypes_perm_eq {types types' : List GqlType}
    (hp : types.Perm types') (hnd : (customNames types).Nodup) :
    registerTypes types' = registerTypes types := by
  have hpc : (customNames types).Perm (customNames types') := by
    show ((types.filter (fun t => customEntry t)).map (fun t => t.name)).Perm
      ((types'.filter (fun t => customEntry t)).map (fun t => t.name))
    exact (hp.filter (fun t => customEntry t)).map (fun t => t.name)
  have hnd' : (customNames types').Nodup := hpc.nodup_iff.mp hnd
  have inv := registerTypes_inv types
  have inv' := registerTypes_inv types'
  have hdeps : (registerTypes types').typesToDependencies
      = (registerTypes types).typesToDependencies := by
    refine AMSorted_ext inv'.sortedDeps inv.sortedDeps ?_
    intro k
    by_cases hk : k ∈ customNames types
    · simp only [customNames, List.mem_map] at hk
      obtain ⟨t, ht, hname⟩ := hk
      have ht' := List.mem_filter.mp ht
      have hmem' : t ∈ types' := hp.mem_iff.mp ht'.1
      rw [← hname]
      rw [inv.depVal hnd t ht'.1 ht'.2, inv'.depVal hnd' t hmem' ht'.2]
    · have h1 : alookup k (registerTypes types).typesToDependencies = none := by
        have := (inv.depNames k).not.mpr hk
        simpa [Option.not_isSome_iff_eq_none] using this
      have hk' : k ∉ customNames types' := fun hc => hk (hpc.mem_iff.mpr hc)
      have h2 : alookup k (registerTypes types').typesToDependencies = none := by
        have := (inv'.depNames k).not.mpr hk'
        simpa [Option.not_isSome_iff_eq_none] using this
      rw [h1, h2]
  have hdentmem : ∀ k j, j ∈ (alookup k (registerTypes types').typesToDependents).getD []
      ↔ j ∈ (alookup k (registerTypes types).typesToDependents).getD [] := by
    intro k j
    rw [inv.dentsMem k j, inv'.dentsMem k j]
    constructor
    · intro ⟨t, ht, h2, h3, h4⟩
      exact ⟨t, hp.mem_iff.mpr ht, h2, h3, h4⟩
    · intro ⟨t, ht, h2, h3, h4⟩
      exact ⟨t, hp.mem_iff.mp ht, h2, h3, h4⟩
  have hdents : (registerTypes types').typesToDependents
      = (registerTypes types).typesToDependents := by
    refine AMSorted_ext inv'.sortedDents inv.sortedDents ?_
    intro k
    cases h1 : alookup k (registerTypes types').typesToDependents with
    | none =>
      cases h2 : alookup k (registerTypes types).typesToDependents with
      | none => rfl
      | some w =>
        exfalso
        have hw : w ≠ [] := registerTypes_dents_nonempty types k w h2
        obtain ⟨j, hj⟩ := List.exists_mem_of_ne_nil w hw
        have : j ∈ (alookup k (registerTypes types').typesToDependents).getD [] :=
          (hdentmem k j).mpr (by rw [h2]; exact hj)
        rw [h1] at this
        simp at this
    | some v =>
      cases h2 : alookup k (registerTypes types).typesToDependents with
      | none =>
        exfalso
        have hv : v ≠ [] := registerTypes_dents_nonempty types' k v h1
        obtain ⟨j, hj⟩ := List.exists_mem_of_ne_nil v hv
        have : j ∈ (alookup k (registerTypes types).typesToDependents).getD [] :=
          (hdentmem k j).mp (by rw [h1]; exact hj)
        rw [h2] at this
        simp at this
      | some w =>
        have hsv : SSorted v := by
          have := inv'.setsSorted k
          rw [h1] at this
          exact this
        have hsw : SSorted w := by
          have := inv.setsSorted k
          rw [h2] at this
          exact this
        have : v = w := by
          refine SSorted_ext hsv hsw ?_
          intro x
          have := hdentmem k x
          rw [h1, h2] at this
          exact this
        rw [this]
  calc registerTypes types'
      = ⟨(registerTypes types').typesToDependents,
         (registerTypes types').typesToDependencies⟩ := rfl
    _ = ⟨(registerTypes types).typesToDependents,
         (registerTypes types).typesToDependencies⟩ := by rw [hdents, hdeps]
    _ = registerTypes types := rfl

/-- Modelled from the spec's words, not from the code: one idealized
elimination pass simultaneously removes every type all of whose
dependencies were removed in strictly earlier passes, listing each pass's
names lexicographically.  Used only to compare the code's emission order
against the spec's tie-break sentence. -/
def specPassesGo : Nat → List (String × List String) → List String → List (List String)
  | 0, _, _ => []
  | fuel + 1, pending, removed =>
    if pending.isEmpty then []
    else
      let free := pending.filter (fun p => p.2.all (fun d => removed.contains d))
      if free.isEmpty then []
      else
        let names := insortAll (free.map Prod.fst)
        names :: specPassesGo fuel
          (pending.filter (fun p => !names.contains p.1)) (removed ++ names)

/-- The idealized pass decomposition of a schema's custom types, per the
spec's description of the elimination rounds. -/
def specPassList (types : List GqlType) : List (List String) :=
  specPassesGo (types.length + 1)
    ((types.filter (fun t => customEntry t)).map
      (fun t => (t.name, typeDependencyNames t)))
    []

/-- C2 (amended: the lexicographic tie-break holds for the passes the
code actually runs, not for the idealized rounds of the spec — a type
freed mid-pass is emitted in that same pass, see the counterexample).
Sorting is order-independent: permuting an input with distinct custom
names leaves the result unchanged, because the registration state is
already identical; and each elimination pass emits its names in strictly
ascending lexicographic order. -/
theorem C2_sort_order_independent_and_pass_ascending
    (types types' : List GqlType) (hp : types.Perm types')
    (hnd : (customNames types).Nodup) :
    sortCustomTypesByDependencyOrder types' = sortCustomTypesByDependencyOrder types
    ∧ ∀ (m : List (String × (GqlType × List String))) (done : List String)
        (fuel : Nat) (pos : Option String),
        AMSorted m →
        PassInv (registerTypes types).typesToDependencies done [] m →
        DepOrdered (registerTypes types).typesToDependencies done →
        List.Chain' (fun a b => strLtb a b = true)
          (runPass (registerTypes types).typesToDependents fuel m pos).2.1 := by
  constructor
  · show (fun st : SortState => sortLoop st.typesToDependents
        (st.typesToDependencies.length + 1) st.typesToDependencies)
        (registerTypes types')
      = (fun st : SortState => sortLoop st.typesToDependents
        (st.typesToDependencies.length + 1) st.typesToDependencies)
        (registerTypes types)
    exact congrArg (fun st : SortState => sortLoop st.typesToDependents
      (st.typesToDependencies.length + 1) st.typesToDependencies)
      (registerTypes_perm_eq hp hnd)
  · intro m done fuel pos h1 h2 h3
    have ctx := regCtx_of_nodup hnd
    have hspec := runPass_spec ctx done fuel m pos [] h1 h2
      (by rw [List.append_nil]; exact h3)
      (by intro c hc; simp at hc)
      (by intro c hc; simp at hc)
      List.chain'_nil
    simpa using hspec.2.2.2.2.2.1

/-- C2 witness: swapping the two types of a small schema leaves the
sorter's output unchanged. -/
theorem C2_sort_order_independent_witness :
    ([objType "B" ["A"], objType "A" []].Perm [objType "A" [], objType "B" ["A"]])
    ∧ (customNames [objType "B" ["A"], objType "A" []]).Nodup
    ∧ sortCustomTypesByDependencyOrder [objType "A" [], objType "B" ["A"]]
        = sortCustomTypesByDependencyOrder [objType "B" ["A"], objType "A" []] :=
  ⟨by decide, by decide,
    (C2_sort_order_independent_and_pass_ascending
      [objType "B" ["A"], objType "A" []] [objType "A" [], objType "B" ["A"]]
      (by decide) (by decide)).1⟩

/-- C2 counterexample: reading "the same elimination pass" as the spec's
idealized rounds (a type is freed only by strictly earlier rounds), the
schema `A, M→Z, N→A, Z` has rounds `\x7bA, Z\x7d` then `\x7bM, N\x7d`;
the code instead frees `N` mid-pass and emits `A, N, Z, M`, so `N`
precedes `M` although both sit in the second idealized round and
`M` sorts before `N`. -/
theorem C2_counterexample_same_pass_not_lexicographic :
    sortCustomTypesByDependencyOrder
        [objType "A" [], objType "M" ["Z"], objType "N" ["A"], objType "Z" []]
      = .ok [objType "A" [], objType "N" ["A"], objType "Z" [], objType "M" ["Z"]]
    ∧ specPassList
        [objType "A" [], objType "M" ["Z"], objType "N" ["A"], objType "Z" []]
      = [["A", "Z"], ["M", "N"]]
    ∧ strLtb "M" "N" = true := by
  refine ⟨by decide, by decide, by decide⟩

/-! ## Cycle behaviour -/

/-- The initial map trivially satisfies the pass invariant. -/
theorem PassInv_base (m₀ : List (String × (GqlType × List String))) :
    PassInv m₀ [] [] m₀ := by
  intro k
  refine ⟨fun h => h, ?_⟩
  intro t ds hl
  have hfilt : ds.filter
      (fun d => decide (d ∉ ([] : List String) ∧ d ∉ ([] : List String))) = ds := by
    simp
  rw [hl, if_neg (by simp), hfilt]

theorem foldl_aerase_length_le {α : Type} : ∀ (ks : List String)
    (m : List (String × α)),
    (ks.foldl (fun acc k => aerase k acc) m).length ≤ m.length := by
  intro ks
  induction ks with
  | nil => intro m; exact Nat.le_refl _
  | cons k rest ih =>
    intro m
    simp only [List.foldl_cons]
    exact (ih (aerase k m)).trans (List.length_filter_le _ _)

/-- The elimination loop is total when given more fuel than the map has
entries: it either succeeds or reports the C++'s fixed circular-dependency
message; the fuel sentinel is unreachable. -/
theorem sortLoop_total {m₀ : List (String × (GqlType × List String))}
    {dependents : List (String × List String)} (ctx : RegCtx m₀ dependents) :
    ∀ (fuel : Nat) (m : List (String × (GqlType × List String))) (done : List String),
    AMSorted m →
    PassInv m₀ done [] m →
    DepOrdered m₀ done →
    done.Nodup →
    m.length < fuel →
    (∃ l, sortLoop dependents fuel m = .ok l)
    ∨ sortLoop dependents fuel m = .error "Circular dependencies in schema" := by
  intro fuel
  induction fuel with
  | zero =>
    intro m done _ _ _ _ hlt
    omega
  | succ fuel ih =>
    intro m done h1 h2 h3 h4 hlt
    by_cases hempty : m.isEmpty
    · refine Or.inl ⟨[], ?_⟩
      simp only [sortLoop]
      rw [if_pos hempty]
    · have hord0 : DepOrdered m₀ (done ++ []) := by simpa using h3
      have hspec := runPass_spec ctx done
        (m.length + dependentsSize dependents + 1) m none [] h1 h2 hord0
        (by simp) (by intro c hc; exact absurd hc (by simp)) List.chain'_nil
      obtain ⟨c1, c2, c3, c4, c5, c6, c7, c8⟩ := hspec
      have c3n : PassInv m₀ done
          ((runPass dependents (m.length + dependentsSize dependents + 1) m none).2.1)
          ((runPass dependents (m.length + dependentsSize dependents + 1) m none).2.2) := by
        simpa using c3
      have c4n : DepOrdered m₀
          (done ++ (runPass dependents
            (m.length + dependentsSize dependents + 1) m none).2.1) := by
        simpa using c4
      have c5n : ∀ c ∈ (runPass dependents
          (m.length + dependentsSize dependents + 1) m none).2.1, c ∉ done := by
        intro c hc
        exact c5 c (by simpa using hc)
      have c6n : List.Chain' (fun a b => strLtb a b = true)
          ((runPass dependents (m.length + dependentsSize dependents + 1) m none).2.1) := by
        simpa using c6
      have haddnd : (runPass dependents (m.length + dependentsSize dependents + 1)
          m none).2.1.Nodup := by
        have hpw := List.chain'_iff_pairwise.mp c6n
        exact hpw.imp (fun h => strLtb_ne h)
      have hmemM : ∀ a ∈ (runPass dependents (m.length + dependentsSize dependents + 1)
          m none).2.1, a ∈ akeys (runPass dependents
            (m.length + dependentsSize dependents + 1) m none).2.2 := by
        intro a ha
        rw [c2]
        exact c7 a ha
      obtain ⟨d1, d2, d3⟩ := eraseAll_spec _ _ c1 haddnd hmemM
      have hMlen : (runPass dependents (m.length + dependentsSize dependents + 1)
          m none).2.2.length = m.length := by
        have h := congrArg List.length c2
        simpa [akeys] using h
      by_cases hsize : ((runPass dependents (m.length + dependentsSize dependents + 1)
            m none).2.1.foldl (fun acc k => aerase k acc)
            (runPass dependents (m.length + dependentsSize dependents + 1)
              m none).2.2).length = m.length
      · refine Or.inr ?_
        simp only [sortLoop]
        rw [if_neg hempty, if_pos hsize]
      · have hlen' : ((runPass dependents (m.length + dependentsSize dependents + 1)
            m none).2.1.foldl (fun acc k => aerase k acc)
            (runPass dependents (m.length + dependentsSize dependents + 1)
              m none).2.2).length < m.length := by
          rw [d2, hMlen] at hsize ⊢
          have hpos : 0 < m.length := by
            rcases m with _ | ⟨kv, rest⟩
            · exact absurd rfl hempty
            · simp
          omega
        have hpi' := PassInv_after_erase c3n d3
        have hnd' : (done ++ (runPass dependents
            (m.length + dependentsSize dependents + 1) m none).2.1).Nodup := by
          rw [List.nodup_append]
          exact ⟨h4, haddnd, fun a ha hc => (c5n a hc) ha⟩
        rcases ih _ _ d1 hpi' c4n hnd' (by omega) with ⟨l, hl⟩ | herr
        · refine Or.inl ⟨(runPass dependents
            (m.length + dependentsSize dependents + 1) m none).1 ++ l, ?_⟩
          simp only [sortLoop]
          rw [if_neg hempty, if_neg hsize, hl]
        · refine Or.inr ?_
          simp only [sortLoop]
          rw [if_neg hempty, if_neg hsize, herr]

/-- A dependency edge between custom-type names of a schema: some custom
type named `a` records `b` among its dependency names, and `b` names a
custom type of the schema. -/
def depEdge (types : List GqlType) (a b : String) : Prop :=
  ∃ t ∈ types, customEntry t = true ∧ t.name = a ∧ b ∈ typeDependencyNames t
    ∧ ∃ u ∈ types, customEntry u = true ∧ u.name = b

instance depEdgeDecidable (types : List GqlType) (a b : String) :
    Decidable (depEdge types a b) :=
  inferInstanceAs (Decidable (∃ t ∈ types, customEntry t = true ∧ t.name = a
    ∧ b ∈ typeDependencyNames t ∧ ∃ u ∈ types, customEntry u = true ∧ u.name = b))

/-- First index of a name in a list (length when absent). -/
def idxOf (b : String) : List String → Nat
  | [] => 0
  | x :: xs => if x = b then 0 else idxOf b xs + 1

theorem idxOf_lt_length : ∀ (l : List String) (b : String), b ∈ l →
    idxOf b l < l.length := by
  intro l
  induction l with
  | nil => intro b h; simp at h
  | cons x xs ih =>
    intro b h
    by_cases hx : x = b
    · simp [idxOf, hx]
    · simp only [idxOf, if_neg hx, List.length_cons]
      rcases List.mem_cons.mp h with h' | h'
      · exact absurd h'.symm hx
      · exact Nat.succ_lt_succ (ih b h')

theorem get_idxOf : ∀ (l : List String) (b : String) (h : b ∈ l)
    (hi : idxOf b l < l.length), l.get ⟨idxOf b l, hi⟩ = b := by
  intro l
  induction l with
  | nil => intro b h; simp at h
  | cons x xs ih =>
    intro b h hi
    rw [List.get_eq_getElem]
    by_cases hx : x = b
    · simp only [idxOf, if_pos hx]
      simpa using hx
    · simp only [idxOf, if_neg hx]
      rw [List.getElem_cons_succ]
      rcases List.mem_cons.mp h with h' | h'
      · exact absurd h'.symm hx
      · have := ih b h' (idxOf_lt_length xs b h')
        rw [List.get_eq_getElem] at this
        exact this

theorem idxOf_lt_of_mem_take : ∀ (l : List String) (i : Nat) (b : String),
    b ∈ l.take i → idxOf b l < i := by
  intro l
  induction l with
  | nil => intro i b h; simp at h
  | cons x xs ih =>
    intro i b h
    cases i with
    | zero => simp at h
    | succ n =>
      rw [List.take_succ_cons] at h
      by_cases hx : x = b
      · simp only [idxOf, if_pos hx]
        omega
      · simp only [idxOf, if_neg hx]
        rcases List.mem_cons.mp h with h' | h'
        · exact absurd h'.symm hx
        · have := ih n b h'
          omega

/-- Along a chain of strictly position-decreasing edges, every node sits
strictly below the start. -/
theorem chain_lt (pos : String → Nat) : ∀ (l : List String) (a : String),
    List.Chain (fun x y => pos y < pos x) a l → ∀ b ∈ l, pos b < pos a := by
  intro l
  induction l with
  | nil => intro a _ b hb; simp at hb
  | cons x xs ih =>
    intro a hch b hb
    cases hch with
    | cons hax hxs =>
      rcases List.mem_cons.mp hb with h | h
      · rw [h]; exact hax
      · exact (ih x hxs b h).trans hax

/-- C3 (amended: the error is the fixed message `Circular dependencies in
schema` with no type names in it, and the claim needs distinct custom
names — under a duplicated name a cycle can dissolve, see the
counterexample).  Under distinct custom names, a dependency cycle —
a chain of custom-dependency edges from `a` back to `a` — makes
`sortCustomTypesByDependencyOrder` return exactly that error. -/
theorem C3_cycle_error_fixed_message (types : List GqlType)
    (hnd : (customNames types).Nodup)
    (a : String) (c : List String)
    (hchain : List.Chain (depEdge types) a (c ++ [a])) :
    sortCustomTypesByDependencyOrder types
      = .error "Circular dependencies in schema" := by
  have inv := registerTypes_inv types
  have ctx := regCtx_of_nodup hnd
  rcases sortLoop_total ctx ((registerTypes types).typesToDependencies.length + 1)
      (registerTypes types).typesToDependencies [] inv.sortedDeps (PassInv_base _)
      (by intro i hi; simp at hi) List.nodup_nil (by omega) with ⟨l, hok⟩ | herr
  · exfalso
    obtain ⟨added, hf2, hord, hnodup, hcov, hsub⟩ :=
      sortLoop_spec ctx _ (registerTypes types).typesToDependencies []
        inv.sortedDeps (PassInv_base _) (by intro i hi; simp at hi)
        List.nodup_nil l hok
    rw [List.nil_append] at hord
    have hdec : ∀ x y, depEdge types x y → idxOf y added < idxOf x added := by
      intro x y hedge
      obtain ⟨t, ht, hct, hname, hdep, u, hu, hcu, huname⟩ := hedge
      have hlookx : alookup x (registerTypes types).typesToDependencies
          = some (t, insortAll (typeDependencyNames t)) := by
        rw [← hname]
        exact inv.depVal hnd t ht hct
      have hlooky : alookup y (registerTypes types).typesToDependencies
          = some (u, insortAll (typeDependencyNames u)) := by
        rw [← huname]
        exact inv.depVal hnd u hu hcu
      have hxmem : x ∈ added := by
        have hk : x ∈ akeys (registerTypes types).typesToDependencies := by
          rw [← alookup_isSome_iff, hlookx]
          rfl
        simpa using hcov x hk
      have hi := idxOf_lt_length added x hxmem
      have hget := get_idxOf added x hxmem hi
      have htake : y ∈ added.take (idxOf x added) :=
        hord (idxOf x added) hi t (insortAll (typeDependencyNames t))
          (by rw [hget]; exact hlookx) y ((mem_insortAll _ _).mpr hdep)
      exact idxOf_lt_of_mem_take added (idxOf x added) y htake
    have hchain2 : List.Chain (fun x y => idxOf y added < idxOf x added)
        a (c ++ [a]) := List.Chain.imp (fun x y h => hdec x y h) hchain
    have := chain_lt (fun s => idxOf s added) (c ++ [a]) a hchain2 a (by simp)
    omega
  · exact herr

/-- C3 witness: the classic two-type mutual dependency `Alpha ↔ Beta`
aborts with the fixed message. -/
theorem C3_cycle_error_fixed_message_witness :
    (customNames [objType "Alpha" ["Beta"], objType "Beta" ["Alpha"]]).Nodup
    ∧ List.Chain (depEdge [objType "Alpha" ["Beta"], objType "Beta" ["Alpha"]])
        "Alpha" (["Beta"] ++ ["Alpha"])
    ∧ sortCustomTypesByDependencyOrder
        [objType "Alpha" ["Beta"], objType "Beta" ["Alpha"]]
      = .error "Circular dependencies in schema" :=
  ⟨by decide,
    List.Chain.cons (by decide) (List.Chain.cons (by decide) List.Chain.nil),
    C3_cycle_error_fixed_message [objType "Alpha" ["Beta"], objType "Beta" ["Alpha"]]
      (by decide) "Alpha" ["Beta"]
      (List.Chain.cons (by decide) (List.Chain.cons (by decide) List.Chain.nil))⟩

/-- Whether `needle` occurs as a prefix of `hay`. -/
def listIsPrefix : List Char → List Char → Bool
  | [], _ => true
  | _ :: _, [] => false
  | x :: xs, y :: ys => x = y && listIsPrefix xs ys

/-- Whether `needle` occurs contiguously anywhere in `hay`. -/
def containsSub (hay needle : List Char) : Bool :=
  match hay with
  | [] => needle.isEmpty
  | _ :: rest => listIsPrefix needle hay || containsSub rest needle

/-- C3 counterexample: the reported error is the fixed string with no type
names in it (`Alpha`/`Beta` do not occur in the message); and with a
duplicated name the cycle premise holds by names (`A` depends on `B`,
`B` depends on `A`) yet the sorter succeeds, because the second `A`
overwrote the first's map entry. -/
theorem C3_counterexample_fixed_message_and_duplicate_cycle_ok :
    containsSub "Circular dependencies in schema".data "Alpha".data = false
    ∧ containsSub "Circular dependencies in schema".data "Beta".data = false
    ∧ depEdge [objType "A" ["B"], objType "A" [], objType "B" ["A"]] "A" "B"
    ∧ depEdge [objType "A" ["B"], objType "A" [], objType "B" ["A"]] "B" "A"
    ∧ sortCustomTypesByDependencyOrder
        [objType "A" ["B"], objType "A" [], objType "B" ["A"]]
      = .ok [objType "A" [], objType "B" ["A"]] := by
  refine ⟨by decide, by decide, by decide, by decide, by decide⟩

/-! ## The type-name renderer and scalar resolution -/

/-- C7: `cppTypeName` renders a named kind as its bare name; `NonNull` as
its wrapped type rendered non-optional; a non-`NonNull` type in a
nullable position as an `optional<...>`-wrapped rendering of itself; and
a `List` as a `std::vector` of its element rendered in nullable position
(so the element is `optional` unless `NonNull`) — composing to
`std::vector<Object>` for `NonNull(List(NonNull(Object)))` and
`optional<std::vector<optional<Object>>>` for a top-level
`List(Object)`. -/
theorem C7_cppTypeName_shape (t u : TypeRef) (n : Option String) (b : Bool) :
    (∀ k, (k = TypeKind.Object ∨ k = TypeKind.Interface ∨ k = TypeKind.Union
        ∨ k = TypeKind.Enum ∨ k = TypeKind.InputObject) →
      ∀ (nm : String) (o : Option TypeRef),
        cppTypeName (.mk k (some nm) o) false = some nm)
    ∧ cppTypeName (.mk .NonNull n (some u)) b = cppTypeName u false
    ∧ (t.kind ≠ TypeKind.NonNull →
        cppTypeName t true
          = (cppTypeName t false).map (fun s => "optional<" ++ s ++ ">"))
    ∧ cppTypeName (.mk .List n (some u)) false
        = (cppTypeName u true).map (fun s => "std::vector<" ++ s ++ ">")
    ∧ cppTypeName (.mk .NonNull none (some (.mk .List none (some
        (.mk .NonNull none (some (.mk .Object (some "Object") none)))))))
        = some "std::vector<Object>"
    ∧ cppTypeName (.mk .List none (some (.mk .Object (some "Object") none)))
        = some "optional<std::vector<optional<Object>>>" := by
  have hfalse : ∀ v : TypeRef, cppTypeName v false = cppTypeNameCore v := by
    intro v
    rw [cppTypeName, if_neg (fun hc => by simpa using hc.1)]
  refine ⟨?_, ?_, ?_, ?_, by decide, by decide⟩
  · intro k hk nm o
    rcases hk with h | h | h | h | h <;> subst h <;> rfl
  · have h1 : cppTypeName (.mk .NonNull n (some u)) b
        = cppTypeNameCore (.mk .NonNull n (some u)) := by
      rw [cppTypeName, if_neg (fun hc => hc.2 rfl)]
    rw [h1, hfalse u]
    rfl
  · intro h
    rw [cppTypeName, if_pos ⟨rfl, h⟩, hfalse]
  · rw [hfalse]
    have hinner : (if u.kind ≠ TypeKind.NonNull then
          (cppTypeNameCore u).map (fun s => "optional<" ++ s ++ ">")
        else cppTypeNameCore u) = cppTypeName u true := by
      by_cases h : u.kind = TypeKind.NonNull
      · rw [if_neg (by simpa using h), cppTypeName, if_neg (fun hc => hc.2 h)]
      · rw [if_pos h, cppTypeName, if_pos ⟨rfl, h⟩]
    simp only [cppTypeNameCore]
    rw [hinner]
    cases cppTypeName u true with
    | none => rfl
    | some s => rfl

/-- C7 witness: a plain object reference in nullable position picks up the
`optional` wrapper. -/
theorem C7_cppTypeName_shape_witness :
    cppTypeName (.mk .Object (some "Object") none) true
      = (cppTypeName (.mk .Object (some "Object") none) false).map
          (fun s => "optional<" ++ s ++ ">") :=
  (C7_cppTypeName_shape (.mk .Object (some "Object") none)
    (.mk .Object (some "Object") none) none true).2.2.1 (by decide)

/-- C8: the five built-in scalar names resolve to `Int`→`int32_t`,
`Float`→`double`, `String`→`std::string`, `ID`→the `Id` alias,
`Boolean`→`bool`, and every other name fails with the error that carries
the offending name. -/
theorem C8_scalar_resolution (n : String)
    (h : n ≠ "Int" ∧ n ≠ "Float" ∧ n ≠ "String" ∧ n ≠ "Boolean" ∧ n ≠ "ID") :
    scalarType "Int" = .ok .Int ∧ cppScalarName .Int = "int32_t"
    ∧ scalarType "Float" = .ok .Float ∧ cppScalarName .Float = "double"
    ∧ scalarType "String" = .ok .String ∧ cppScalarName .String = "std::string"
    ∧ scalarType "ID" = .ok .ID ∧ cppScalarName .ID = cppIdTypeName
    ∧ scalarType "Boolean" = .ok .Boolean ∧ cppScalarName .Boolean = "bool"
    ∧ scalarType n = .error ("Invalid Scalar value: " ++ n) := by
  obtain ⟨h1, h2, h3, h4, h5⟩ := h
  refine ⟨by decide, rfl, by decide, rfl, by decide, rfl, by decide, rfl,
    by decide, rfl, ?_⟩
  rw [scalarType, if_neg h1, if_neg h2, if_neg h3, if_neg h4, if_neg h5]

/-- C8 witness: the unknown scalar name `Date` fails, and the error names
it. -/
theorem C8_scalar_resolution_witness :
    scalarType "Date" = .error ("Invalid Scalar value: " ++ "Date") :=
  (C8_scalar_resolution "Date"
    (by decide)).2.2.2.2.2.2.2.2.2.2

/-! ## The partial case-conversion helpers -/

/-- C10: `capitalize`/`uncapitalize` are defined on exactly the non-empty
strings — `std::string::at(0)` throws on the empty string, modelled by
`capitalizeOpt`/`uncapitalizeOpt` returning `none` there — and on a
non-empty string they change exactly the first character's case, leaving
the rest intact.  The generation paths that case-convert (operation
names via `capitalize field.name` in `generateQueryDocument`, variable
prefixes via `appendNameToVariablePrefix`) therefore presuppose
non-empty field, argument and type names. -/
theorem C10_case_conversion_first_char (s : String) (c : Char) (cs : List Char)
    (h : s.data = c :: cs) :
    capitalizeOpt s = some (capitalize s)
    ∧ uncapitalizeOpt s = some (uncapitalize s)
    ∧ (capitalize s).data = c.toUpper :: cs
    ∧ (uncapitalize s).data = c.toLower :: cs
    ∧ capitalizeOpt "" = none
    ∧ uncapitalizeOpt "" = none := by
  refine ⟨?_, ?_, ?_, ?_, rfl, rfl⟩
  · simp only [capitalizeOpt, capitalize, h]
  · simp only [uncapitalizeOpt, uncapitalize, h]
  · simp only [capitalize, h]
  · simp only [uncapitalize, h]

/-- C10 witness: on `abc` both conversions succeed and touch only the
first character. -/
theorem C10_case_conversion_first_char_witness :
    "abc".data = 'a' :: ['b', 'c']
    ∧ capitalizeOpt "abc" = some (capitalize "abc")
    ∧ (capitalize "abc").data = 'a'.toUpper :: ['b', 'c'] :=
  ⟨by decide,
    (C10_case_conversion_first_char "abc" 'a' ['b', 'c'] (by decide)).1,
    (C10_case_conversion_first_char "abc" 'a' ['b', 'c'] (by decide)).2.2.1⟩

/-! ## Variable naming -/

theorem append_ne_empty {s : String} (h : s ≠ "") (t : String) : s ++ t ≠ "" := by
  intro hc
  apply h
  apply String.ext
  have hd := congrArg String.data hc
  rw [String.data_append] at hd
  exact (List.append_eq_nil.mp hd).1

theorem uncapitalize_ne_empty {s : String} (h : s ≠ "") : uncapitalize s ≠ "" := by
  cases hd : s.data with
  | nil => exact absurd (String.ext hd) h
  | cons c cs =>
    simp only [uncapitalize, hd]
    intro hc
    have := congrArg String.data hc
    simp at this

/-- Folding `appendNameToVariablePrefix` from a non-empty prefix appends
the capitalizations of the remaining segments. -/
theorem appendPrefix_foldl (rest : List String) : ∀ (vp : String), vp ≠ "" →
    rest.foldl appendNameToVariablePrefix vp
      = (rest.map capitalize).foldl (fun a b => a ++ b) vp := by
  induction rest with
  | nil => intro vp _; rfl
  | cons r rs ih =>
    intro vp hvp
    simp only [List.foldl_cons, List.map_cons]
    rw [appendNameToVariablePrefix, if_neg hvp]
    exact ih (vp ++ capitalize r) (append_ne_empty hvp _)

/-- The `nestedArg` input of the nested-arguments example. -/
def nestedArgInput : InputValue :=
  { type := .mk .Scalar (some "String") none, name := "nestedArg", description := "" }

/-- The `nestedField` field carrying `nestedArg`. -/
def nestedArgField : Field :=
  { type := .mk .Scalar (some "String") none, name := "nestedField", description := "",
    args := [nestedArgInput] }

/-- The `Object` type of the nested-arguments example. -/
def objectGqlType : GqlType :=
  { kind := .Object, name := "Object", description := "", fields := [nestedArgField],
    inputFields := [], interfaces := [], enumValues := [], possibleTypes := [] }

/-- The root query field `object : Object`. -/
def rootObjectField : Field :=
  { type := .mk .Object (some "Object") none, name := "object", description := "",
    args := [] }

def nestedTypeMap : TypeMap := [("Object", objectGqlType)]

/-- C4: variable names are the fold of `appendNameToVariablePrefix` over
the scope segments — the first segment uncapitalized, every later
segment capitalized and concatenated — and the nested-arguments example
(root field `object` of type `Object`, nested field `nestedField`,
argument `nestedArg`) yields exactly one variable, named
`objectNestedFieldNestedArg`. -/
theorem C4_variable_naming (s : String) (rest : List String) (hs : s ≠ "") :
    (rest.foldl appendNameToVariablePrefix (appendNameToVariablePrefix "" s)
      = (rest.map capitalize).foldl (fun a b => a ++ b) (uncapitalize s))
    ∧ (generateQueryDocument 3 rootObjectField .Query nestedTypeMap 0).map
        (fun d => d.«variables».map (fun v => v.name))
      = some ["objectNestedFieldNestedArg"] := by
  constructor
  · have h1 : appendNameToVariablePrefix "" s = uncapitalize s := by
      rw [appendNameToVariablePrefix, if_pos rfl]
    rw [h1]
    exact appendPrefix_foldl rest (uncapitalize s) (uncapitalize_ne_empty hs)
  · decide

/-- C4 witness: the fold over the segments of the example produces
`objectNestedFieldNestedArg`. -/
theorem C4_variable_naming_witness :
    ("Object" : String) ≠ ""
    ∧ ["nestedField", "nestedArg"].foldl appendNameToVariablePrefix
        (appendNameToVariablePrefix "" "Object")
      = (["nestedField", "nestedArg"].map capitalize).foldl (fun a b => a ++ b)
          (uncapitalize "Object")
    ∧ ["nestedField", "nestedArg"].foldl appendNameToVariablePrefix
        (appendNameToVariablePrefix "" "Object") = "objectNestedFieldNestedArg" :=
  ⟨by decide,
    (C4_variable_naming "Object" ["nestedField", "nestedArg"] (by decide)).1,
    by decide⟩

/-- The query builders only ever append to the `variables` vector. -/
theorem genQuery_vars_extend : ∀ fuel : Nat,
    (∀ (f : Field) (tm : TypeMap) (vp : String) (vars : List QueryVariable)
      (ind : Nat) (s : String) (vars' : List QueryVariable),
      generateQueryField fuel f tm vp vars ind = some (s, vars') →
      ∃ w, vars' = vars ++ w)
    ∧ (∀ (t : GqlType) (tm : TypeMap) (vp : String) (vars : List QueryVariable)
      (ign : List Field) (ind : Nat) (s : String) (vars' : List QueryVariable),
      generateQueryFields fuel t tm vp vars ign ind = some (s, vars') →
      ∃ w, vars' = vars ++ w) := by
  intro fuel
  induction fuel with
  | zero =>
    constructor
    · intro f tm vp vars ind s vars' h
      simp [generateQueryField] at h
    · intro t tm vp vars ign ind s vars' h
      simp [generateQueryFields] at h
  | succ fuel ih =>
    obtain ⟨ihF, ihFs⟩ := ih
    constructor
    · intro f tm vp vars ind s vars' h
      simp only [generateQueryField] at h
      split_ifs at h with hkind hargs hargs
      · split at h
        · simp at h
        · rename_i n hn
          split at h
          · simp at h
          · rename_i t hl
            split at h
            · simp at h
            · rename_i inner rv2 hrec
              simp only [Option.some.injEq, Prod.mk.injEq] at h
              obtain ⟨w, hw⟩ := ihFs t tm (appendNameToVariablePrefix vp n) _ []
                (ind + 1) inner rv2 hrec
              refine ⟨w, ?_⟩
              rw [← h.2]
              exact hw
      · split at h
        · simp at h
        · rename_i n hn
          split at h
          · simp at h
          · rename_i t hl
            split at h
            · simp at h
            · rename_i inner rv2 hrec
              simp only [Option.some.injEq, Prod.mk.injEq] at h
              obtain ⟨w, hw⟩ := ihFs t tm (appendNameToVariablePrefix vp n) _ []
                (ind + 1) inner rv2 hrec
              refine ⟨f.args.map (fun arg =>
                (⟨appendNameToVariablePrefix vp arg.name, arg.type⟩ : QueryVariable))
                  ++ w, ?_⟩
              rw [← h.2]
              have hw2 : rv2 = (vars ++ f.args.map (fun arg =>
                  (⟨appendNameToVariablePrefix vp arg.name, arg.type⟩ : QueryVariable)))
                  ++ w := hw
              rw [hw2, List.append_assoc]
      · simp only [Option.some.injEq, Prod.mk.injEq] at h
        refine ⟨[], ?_⟩
        rw [← h.2]
        simp
      · simp only [Option.some.injEq, Prod.mk.injEq] at h
        refine ⟨f.args.map (fun arg =>
          (⟨appendNameToVariablePrefix vp arg.name, arg.type⟩ : QueryVariable)), ?_⟩
        rw [← h.2]
    · intro t tm vp vars ign ind s vars' h
      have hown : ∀ (fields : List Field) (acc : String × List QueryVariable)
          (s' : String) (v' : List QueryVariable),
          fields.foldlM (fun (acc : String × List QueryVariable) field =>
            if ign.contains field then pure acc
            else
              (generateQueryField fuel field tm
                (appendNameToVariablePrefix vp field.name) acc.2 ind).map
                (fun r => (acc.1 ++ r.1, r.2))) acc = some (s', v') →
          ∃ w, v' = acc.2 ++ w := by
        intro fields
        induction fields with
        | nil =>
          intro acc s' v' hf
          simp only [List.foldlM_nil] at hf
          rw [show (pure acc : Option (String × List QueryVariable)) = some acc
            from rfl] at hf
          have he := Option.some.inj hf
          refine ⟨[], ?_⟩
          rw [he]
          simp
        | cons fd fds ihf =>
          intro acc s' v' hf
          rw [List.foldlM_cons] at hf
          by_cases hc : ign.contains fd = true
          · rw [if_pos hc] at hf
            rw [show (pure acc : Option (String × List QueryVariable)) = some acc
              from rfl] at hf
            simp only [Option.bind_eq_bind, Option.some_bind] at hf
            exact ihf acc s' v' hf
          · rw [if_neg hc] at hf
            cases hg : generateQueryField fuel fd tm
                (appendNameToVariablePrefix vp fd.name) acc.2 ind with
            | none => rw [hg] at hf; simp at hf
            | some r =>
              obtain ⟨rs, rv⟩ := r
              rw [hg] at hf
              simp only [Option.map_some', Option.bind_eq_bind, Option.some_bind] at hf
              obtain ⟨w2, hw2⟩ := ihf (acc.1 ++ rs, rv) s' v' hf
              obtain ⟨w1, hw1⟩ := ihF fd tm (appendNameToVariablePrefix vp fd.name)
                acc.2 ind rs rv hg
              refine ⟨w1 ++ w2, ?_⟩
              rw [hw2]
              show rv ++ w2 = acc.2 ++ (w1 ++ w2)
              rw [hw1, List.append_assoc]
      have hfrag : ∀ (pts : List TypeRef) (acc : String × List QueryVariable)
          (s' : String) (v' : List QueryVariable),
          pts.foldlM (fun (acc : String × List QueryVariable) possibleType =>
            match possibleType.name with
            | none => none
            | some pn =>
              match alookup pn tm with
              | none => none
              | some pt =>
                (generateQueryFields fuel pt tm
                  (appendNameToVariablePrefix vp pn) acc.2
                  t.fields (ind + 1)).map
                  (fun r =>
                    if r.1 = "" then (acc.1, r.2)
                    else (acc.1 ++ indent ind ++ "...on " ++ pn ++ " \x7b\n"
                      ++ r.1 ++ indent ind ++ "\x7d\n", r.2))) acc = some (s', v') →
          ∃ w, v' = acc.2 ++ w := by
        intro pts
        induction pts with
        | nil =>
          intro acc s' v' hf
          simp only [List.foldlM_nil] at hf
          rw [show (pure acc : Option (String × List QueryVariable)) = some acc
            from rfl] at hf
          have he := Option.some.inj hf
          refine ⟨[], ?_⟩
          rw [he]
          simp
        | cons p ps ihp =>
          intro acc s' v' hf
          rw [List.foldlM_cons] at hf
          split at hf
          · simp at hf
          · rename_i pn hn
            split at hf
            · simp at hf
            · rename_i pt hl
              cases hg : generateQueryFields fuel pt tm
                  (appendNameToVariablePrefix vp pn) acc.2 t.fields (ind + 1) with
              | none => rw [hg] at hf; simp at hf
              | some r =>
                obtain ⟨rs, rv⟩ := r
                rw [hg] at hf
                simp only [Option.map_some', Option.bind_eq_bind, Option.some_bind] at hf
                obtain ⟨w1, hw1⟩ := ihFs pt tm (appendNameToVariablePrefix vp pn)
                  acc.2 t.fields (ind + 1) rs rv hg
                by_cases hrs : rs = ""
                · rw [if_pos hrs] at hf
                  obtain ⟨w2, hw2⟩ := ihp (acc.1, rv) s' v' hf
                  refine ⟨w1 ++ w2, ?_⟩
                  rw [hw2]
                  show rv ++ w2 = acc.2 ++ (w1 ++ w2)
                  rw [hw1, List.append_assoc]
                · rw [if_neg hrs] at hf
                  obtain ⟨w2, hw2⟩ := ihp
                    (acc.1 ++ indent ind ++ "...on " ++ pn ++ " \x7b\n"
                      ++ rs ++ indent ind ++ "\x7d\n", rv) s' v' hf
                  refine ⟨w1 ++ w2, ?_⟩
                  rw [hw2]
                  show rv ++ w2 = acc.2 ++ (w1 ++ w2)
                  rw [hw1, List.append_assoc]
      simp only [generateQueryFields] at h
      split at h
      · simp at h
      · rename_i ownPart hOwn
        obtain ⟨os, ov⟩ := ownPart
        obtain ⟨w1, hw1⟩ := hown t.fields ("", vars) os ov hOwn
        by_cases hpt : t.possibleTypes.isEmpty = true
        · rw [if_pos hpt] at h
          simp only [Option.some.injEq, Prod.mk.injEq] at h
          refine ⟨w1, ?_⟩
          rw [← h.2]
          exact hw1
        · rw [if_neg hpt] at h
          split at h
          · simp at h
          · rename_i fragPart hFrag
            obtain ⟨gs, gv⟩ := fragPart
            simp only [Option.some.injEq, Prod.mk.injEq] at h
            obtain ⟨w2, hw2⟩ := hfrag t.possibleTypes (os, ov) gs gv hFrag
            refine ⟨w1 ++ w2, ?_⟩
            rw [← h.2, hw2]
            show ov ++ w2 = vars ++ (w1 ++ w2)
            have hov : ov = vars ++ w1 := hw1
            rw [hov, List.append_assoc]

/-- C5 (amended: distinctness holds only among the variables of one
field's argument list under a non-empty prefix — across nesting depths
the flattening can collide, see the counterexample).  A successful
`generateQueryField` appends exactly one variable per argument, named by
`appendNameToVariablePrefix`, ahead of whatever nested selections add;
and when the arguments' capitalized names are distinct, these names are
pairwise distinct. -/
theorem C5_field_variables (fuel : Nat) (f : Field) (tm : TypeMap) (vp : String)
    (vars : List QueryVariable) (ind : Nat) (s : String) (vars' : List QueryVariable)
    (hvp : vp ≠ "")
    (hnd : (f.args.map (fun a => capitalize a.name)).Nodup)
    (hok : generateQueryField fuel f tm vp vars ind = some (s, vars')) :
    (∃ w, vars' = vars
        ++ f.args.map (fun a =>
            (⟨appendNameToVariablePrefix vp a.name, a.type⟩ : QueryVariable)) ++ w)
    ∧ (f.args.map (fun a => appendNameToVariablePrefix vp a.name)).Nodup := by
  constructor
  · cases fuel with
    | zero => simp [generateQueryField] at hok
    | succ fuel =>
      simp only [generateQueryField] at hok
      split_ifs at hok with hkind hargs hargs
      · have hnil : f.args = [] := List.isEmpty_iff.mp hargs
        split at hok
        · simp at hok
        · rename_i n hn
          split at hok
          · simp at hok
          · rename_i t hl
            split at hok
            · simp at hok
            · rename_i inner rv2 hrec
              simp only [Option.some.injEq, Prod.mk.injEq] at hok
              obtain ⟨w, hw⟩ := (genQuery_vars_extend fuel).2 t tm
                (appendNameToVariablePrefix vp n) _ [] (ind + 1) inner rv2 hrec
              refine ⟨w, ?_⟩
              rw [← hok.2, hnil]
              simp only [List.map_nil, List.append_nil]
              exact hw
      · split at hok
        · simp at hok
        · rename_i n hn
          split at hok
          · simp at hok
          · rename_i t hl
            split at hok
            · simp at hok
            · rename_i inner rv2 hrec
              simp only [Option.some.injEq, Prod.mk.injEq] at hok
              obtain ⟨w, hw⟩ := (genQuery_vars_extend fuel).2 t tm
                (appendNameToVariablePrefix vp n) _ [] (ind + 1) inner rv2 hrec
              refine ⟨w, ?_⟩
              rw [← hok.2]
              exact hw
      · have hnil : f.args = [] := List.isEmpty_iff.mp hargs
        simp only [Option.some.injEq, Prod.mk.injEq] at hok
        refine ⟨[], ?_⟩
        rw [← hok.2, hnil]
        simp
      · simp only [Option.some.injEq, Prod.mk.injEq] at hok
        refine ⟨[], ?_⟩
        rw [← hok.2]
        simp
  · have hinj : Function.Injective (fun x : String => vp ++ x) := by
      intro a b hab
      have hd := congrArg String.data hab
      rw [String.data_append, String.data_append] at hd
      exact String.ext (List.append_cancel_left hd)
    have hmap : f.args.map (fun a => appendNameToVariablePrefix vp a.name)
        = (f.args.map (fun a => capitalize a.name)).map (fun x => vp ++ x) := by
      rw [List.map_map]
      apply List.map_congr_left
      intro a _
      show appendNameToVariablePrefix vp a.name = vp ++ capitalize a.name
      rw [appendNameToVariablePrefix, if_neg hvp]
    rw [hmap]
    exact List.Nodup.map hinj hnd

/-- First colliding argument (`c` under field `aB`). -/
def argC : InputValue :=
  { type := .mk .Scalar (some "String") none, name := "c", description := "" }

/-- Second colliding argument (`bC` under field `a`). -/
def argBC : InputValue :=
  { type := .mk .Scalar (some "String") none, name := "bC", description := "" }

def fieldAB : Field :=
  { type := .mk .Scalar (some "String") none, name := "aB", description := "",
    args := [argC] }

def fieldA : Field :=
  { type := .mk .Scalar (some "String") none, name := "a", description := "",
    args := [argBC] }

/-- Object type whose two fields produce the same flattened variable name. -/
def collideType : GqlType :=
  { kind := .Object, name := "Obj", description := "", fields := [fieldAB, fieldA],
    inputFields := [], interfaces := [], enumValues := [], possibleTypes := [] }

def rootCollideField : Field :=
  { type := .mk .Object (some "Obj") none, name := "root", description := "",
    args := [] }

def collideTypeMap : TypeMap := [("Obj", collideType)]

/-- C5 counterexample: fields `aB`/argument `c` and `a`/argument `bC`
flatten to the same variable name `objABC`, so the document's variable
list is not duplicate-free. -/
theorem C5_counterexample_cross_depth_collision :
    (generateQueryDocument 3 rootCollideField .Query collideTypeMap 0).map
        (fun d => d.«variables».map (fun v => v.name))
      = some ["objABC", "objABC"]
    ∧ ¬ (["objABC", "objABC"] : List String).Nodup := by
  refine ⟨by decide, by decide⟩

def argX : InputValue :=
  { type := .mk .Scalar (some "String") none, name := "x", description := "" }

def argY : InputValue :=
  { type := .mk .Scalar (some "String") none, name := "y", description := "" }

def fieldXY : Field :=
  { type := .mk .Scalar (some "String") none, name := "f", description := "",
    args := [argX, argY] }

/-- C5 witness: a two-argument scalar field registers exactly its two
distinct variables. -/
theorem C5_field_variables_witness :
    ("obj" : String) ≠ ""
    ∧ generateQueryField 1 fieldXY [] "obj" [] 0
        = some ("f(\n    x: $objX\n    y: $objY\n)\n",
            [⟨"objX", .mk .Scalar (some "String") none⟩,
             ⟨"objY", .mk .Scalar (some "String") none⟩])
    ∧ (fieldXY.args.map (fun a => appendNameToVariablePrefix "obj" a.name)).Nodup :=
  ⟨by decide, by decide,
    (C5_field_variables 1 fieldXY [] "obj" [] 0
      "f(\n    x: $objX\n    y: $objY\n)\n"
      [⟨"objX", .mk .Scalar (some "String") none⟩,
       ⟨"objY", .mk .Scalar (some "String") none⟩]
      (by decide) (by decide) (by decide)).2⟩

/-! ## Polymorphic selection sets -/

def intField : Field :=
  { type := .mk .Scalar (some "Int") none, name := "intField", description := "",
    args := [] }

def floatField : Field :=
  { type := .mk .Scalar (some "Float") none, name := "floatField", description := "",
    args := [] }

/-- Implementation `ImpA`: the shared `intField` plus its own `floatField`. -/
def impA : GqlType :=
  { kind := .Object, name := "ImpA", description := "", fields := [intField, floatField],
    inputFields := [], interfaces := [], enumValues := [], possibleTypes := [] }

/-- Implementation `ImpB`: only the shared `intField`. -/
def impB : GqlType :=
  { kind := .Object, name := "ImpB", description := "", fields := [intField],
    inputFields := [], interfaces := [], enumValues := [], possibleTypes := [] }

/-- The interface `Imp` with possible types `ImpA`, `ImpB`. -/
def impInterface : GqlType :=
  { kind := .Interface, name := "Imp", description := "", fields := [intField],
    inputFields := [], interfaces := [], enumValues := [],
    possibleTypes := [.mk .Object (some "ImpA") none, .mk .Object (some "ImpB") none] }

def impTypeMap : TypeMap := [("Imp", impInterface), ("ImpA", impA), ("ImpB", impB)]

/-- C6 (amended: a possible type all of whose fields were already emitted
at the interface level contributes no inline fragment at all — the code
skips empty fragments, see the counterexample).  A polymorphic type's
selection leads with `__typename`, and on the two-implementation
interface example the generated selection is exactly: `__typename`, the
shared `intField` at the interface level, then a single `...on ImpA`
fragment holding only `floatField` — `intField` is not repeated inside
the fragment, and `ImpB`, whose fields were all emitted, gets none. -/
theorem C6_polymorphic_fields (fuel : Nat) (t : GqlType) (tm : TypeMap)
    (vp : String) (vars : List QueryVariable) (ign : List Field) (ind : Nat)
    (s : String) (vars' : List QueryVariable)
    (hpt : t.possibleTypes.isEmpty ≠ true)
    (hok : generateQueryFields fuel t tm vp vars ign ind = some (s, vars')) :
    (∃ rest, s = indent ind ++ "__typename\n" ++ rest)
    ∧ (generateQueryFields 3 impInterface impTypeMap "interface" [] [] 1).map
        (fun r => r.1)
      = some ("    __typename\n    intField\n    ...on ImpA \x7b\n"
          ++ "        floatField\n    \x7d\n") := by
  constructor
  · cases fuel with
    | zero => simp [generateQueryFields] at hok
    | succ fuel =>
      simp only [generateQueryFields] at hok
      split at hok
      · simp at hok
      · rename_i ownPart hOwn
        rw [if_neg hpt] at hok
        split at hok
        · simp at hok
        · rename_i fragPart hFrag
          simp only [Option.some.injEq, Prod.mk.injEq] at hok
          exact ⟨fragPart.1, hok.1.symm⟩
  · decide

/-- C6 counterexample: `ImpB` is listed among the possible types, yet the
output contains no `...on ImpB` fragment, because every `ImpB` field was
already emitted at the interface level. -/
theorem C6_counterexample_empty_fragment_omitted :
    impInterface.possibleTypes.map (fun r => r.name) = [some "ImpA", some "ImpB"]
    ∧ (generateQueryFields 3 impInterface impTypeMap "interface" [] [] 1).map
        (fun r => r.1)
      = some ("    __typename\n    intField\n    ...on ImpA \x7b\n"
          ++ "        floatField\n    \x7d\n")
    ∧ containsSub ("    __typename\n    intField\n    ...on ImpA \x7b\n"
          ++ "        floatField\n    \x7d\n").data "...on ImpB".data = false := by
  refine ⟨by decide, by decide, by decide⟩

/-- C6 witness: the interface example's selection set indeed opens with
`__typename`. -/
theorem C6_polymorphic_fields_witness :
    impInterface.possibleTypes.isEmpty ≠ true
    ∧ ∃ rest, ("    __typename\n    intField\n    ...on ImpA \x7b\n"
          ++ "        floatField\n    \x7d\n")
        = indent 1 ++ "__typename\n" ++ rest :=
  ⟨by decide,
    (C6_polymorphic_fields 3 impInterface impTypeMap "interface" [] [] 1
      ("    __typename\n    intField\n    ...on ImpA \x7b\n"
        ++ "        floatField\n    \x7d\n")
      [] (by decide) (by decide)).1⟩

/-! ## The operation response decoder -/

/-- C9: the emitted decoder first probes the payload for a top-level
`errors` list and returns it as the failure case; otherwise it reads
`data` and, for a `NonNull` root field, extracts the field's key with
the throwing `at` accessor, while for a nullable root field it uses
`find` and falls back to the default-constructed (`no value`) response
data when the key is absent. -/
theorem C9_response_function_shape (f : Field) (ind : Nat) (s : String)
    (hok : generateOperationResponseFunction f ind = some s) :
    (∃ pre post, s = pre ++ "auto errors = json.find(\"errors\");\n" ++ post
      ∧ ∃ mid post2, post = mid ++ "return errorsList;\n" ++ post2)
    ∧ (f.type.kind = TypeKind.NonNull →
        ∃ pre post, s = pre
          ++ ("return ResponseData(data.at(\"" ++ f.name ++ "\"));\n") ++ post)
    ∧ (f.type.kind ≠ TypeKind.NonNull →
        ∃ pre post,
          s = pre ++ ("auto it = data.find(\"" ++ f.name ++ "\");\n") ++ post
          ∧ ∃ mid post2, post = mid ++ "return ResponseData\x7b\x7d;\n" ++ post2) := by
  simp only [generateOperationResponseFunction] at hok
  split at hok
  · simp at hok
  · rename_i dataType hct
    have hs := (Option.some.inj hok).symm
    subst hs
    refine ⟨?_, ?_, ?_⟩
    · refine ⟨indent ind ++ "using ResponseData = " ++ dataType ++ ";\n\n"
        ++ indent ind ++ "static " ++ "GraphqlResponse<ResponseData>"
        ++ " response(" ++ cppJsonTypeName ++ " const & json) \x7b\n"
        ++ indent (ind + 1),
        indent (ind + 1) ++ "if (errors != json.end()) \x7b\n"
        ++ indent (ind + 2) ++ ("std::vector<" ++ grapqlErrorTypeName ++ ">")
        ++ " errorsList = *errors;\n"
        ++ indent (ind + 2) ++ "return errorsList;\n"
        ++ indent (ind + 1) ++ "\x7d else \x7b\n"
        ++ indent (ind + 2) ++ "auto const & data = json.at(\"data\");\n"
        ++ (if f.type.kind = TypeKind.NonNull then
              indent (ind + 2) ++ "return ResponseData(data.at(\""
                ++ f.name ++ "\"));\n"
            else
              indent (ind + 2) ++ "auto it = data.find(\"" ++ f.name ++ "\");\n"
              ++ indent (ind + 2) ++ "if (it != data.end()) \x7b\n"
              ++ indent (ind + 3) ++ "return ResponseData(*it);\n"
              ++ indent (ind + 2) ++ "\x7d else \x7b\n"
              ++ indent (ind + 3) ++ "return ResponseData\x7b\x7d;\n"
              ++ indent (ind + 2) ++ "\x7d\n")
        ++ indent (ind + 1) ++ "\x7d\n" ++ indent ind ++ "\x7d\n\n",
        ?_,
        indent (ind + 1) ++ "if (errors != json.end()) \x7b\n"
        ++ indent (ind + 2) ++ ("std::vector<" ++ grapqlErrorTypeName ++ ">")
        ++ " errorsList = *errors;\n" ++ indent (ind + 2),
        indent (ind + 1) ++ "\x7d else \x7b\n"
        ++ indent (ind + 2) ++ "auto const & data = json.at(\"data\");\n"
        ++ (if f.type.kind = TypeKind.NonNull then
              indent (ind + 2) ++ "return ResponseData(data.at(\""
                ++ f.name ++ "\"));\n"
            else
              indent (ind + 2) ++ "auto it = data.find(\"" ++ f.name ++ "\");\n"
              ++ indent (ind + 2) ++ "if (it != data.end()) \x7b\n"
              ++ indent (ind + 3) ++ "return ResponseData(*it);\n"
              ++ indent (ind + 2) ++ "\x7d else \x7b\n"
              ++ indent (ind + 3) ++ "return ResponseData\x7b\x7d;\n"
              ++ indent (ind + 2) ++ "\x7d\n")
        ++ indent (ind + 1) ++ "\x7d\n" ++ indent ind ++ "\x7d\n\n", ?_⟩
      · simp [String.append_assoc]
      · simp [String.append_assoc]
    · intro hk
      rw [if_pos hk]
      refine ⟨indent ind ++ "using ResponseData = " ++ dataType ++ ";\n\n"
        ++ indent ind ++ "static " ++ "GraphqlResponse<ResponseData>"
        ++ " response(" ++ cppJsonTypeName ++ " const & json) \x7b\n"
        ++ indent (ind + 1) ++ "auto errors = json.find(\"errors\");\n"
        ++ indent (ind + 1) ++ "if (errors != json.end()) \x7b\n"
        ++ indent (ind + 2) ++ ("std::vector<" ++ grapqlErrorTypeName ++ ">")
        ++ " errorsList = *errors;\n"
        ++ indent (ind + 2) ++ "return errorsList;\n"
        ++ indent (ind + 1) ++ "\x7d else \x7b\n"
        ++ indent (ind + 2) ++ "auto const & data = json.at(\"data\");\n"
        ++ indent (ind + 2),
        indent (ind + 1) ++ "\x7d\n" ++ indent ind ++ "\x7d\n\n", ?_⟩
      simp [String.append_assoc]
    · intro hk
      rw [if_neg hk]
      refine ⟨indent ind ++ "using ResponseData = " ++ dataType ++ ";\n\n"
        ++ indent ind ++ "static " ++ "GraphqlResponse<ResponseData>"
        ++ " response(" ++ cppJsonTypeName ++ " const & json) \x7b\n"
        ++ indent (ind + 1) ++ "auto errors = json.find(\"errors\");\n"
        ++ indent (ind + 1) ++ "if (errors != json.end()) \x7b\n"
        ++ indent (ind + 2) ++ ("std::vector<" ++ grapqlErrorTypeName ++ ">")
        ++ " errorsList = *errors;\n"
        ++ indent (ind + 2) ++ "return errorsList;\n"
        ++ indent (ind + 1) ++ "\x7d else \x7b\n"
        ++ indent (ind + 2) ++ "auto const & data = json.at(\"data\");\n"
        ++ indent (ind + 2),
        indent (ind + 2) ++ "if (it != data.end()) \x7b\n"
        ++ indent (ind + 3) ++ "return ResponseData(*it);\n"
        ++ indent (ind + 2) ++ "\x7d else \x7b\n"
        ++ indent (ind + 3) ++ "return ResponseData\x7b\x7d;\n"
        ++ indent (ind + 2) ++ "\x7d\n"
        ++ indent (ind + 1) ++ "\x7d\n" ++ indent ind ++ "\x7d\n\n",
        ?_,
        indent (ind + 2) ++ "if (it != data.end()) \x7b\n"
        ++ indent (ind + 3) ++ "return ResponseData(*it);\n"
        ++ indent (ind + 2) ++ "\x7d else \x7b\n" ++ indent (ind + 3),
        indent (ind + 2) ++ "\x7d\n"
        ++ indent (ind + 1) ++ "\x7d\n" ++ indent ind ++ "\x7d\n\n", ?_⟩
      · simp [String.append_assoc]
      · simp [String.append_assoc]

/-- The `NonNull`-rooted field of the response-decoder witness. -/
def respField : Field :=
  { type := .mk .NonNull none (some (.mk .Scalar (some "Int") none)), name := "value",
    description := "", args := [] }

set_option maxRecDepth 16384 in
/-- C9 witness: on a `NonNull Int` root field named `value` the decoder
text extracts `data.at("value")` as required. -/
theorem C9_response_function_shape_witness :
    respField.type.kind = TypeKind.NonNull
    ∧ ∃ pre post, (generateOperationResponseFunction respField 0).getD ""
        = pre ++ ("return ResponseData(data.at(\"" ++ respField.name ++ "\"));\n")
          ++ post :=
  ⟨rfl, (C9_response_function_shape respField 0
      ((generateOperationResponseFunction respField 0).getD "") (by decide)).2.1 rfl⟩

end caffql
